import Mathlib

/-!
Verification of the floorplan-graph core of `app.py` (Student_Traffic_Map).

The Python source keeps each map as a dict with lists of space dicts and
hallway dicts, plus transient schedule data.  We embed it as follows:

* Python `float` is modelled by an abstract linearly ordered commutative
  ring `α` (the source never divides; `α := ℝ` gives the exact reading and
  `α := ℤ` gives kernel-computable witnesses); `math.sqrt` is passed around
  as an explicit function parameter `sqrt : α → α`, and claims that depend
  on properties of the square root take them as hypotheses that `Real.sqrt`
  satisfies.
* Python `int` is `Int`; `math.inf` sentinels are `⊤ : WithTop α`.
* The per-space dicts `dist` / `prev` / `prev_edge` of Dijkstra are total
  functions `Int → _`; the Python dicts are keyed by exactly the graph's
  vertex set and are only ever read at vertices of the graph (the graph is
  closed under its arcs, see `build_graph_closed`), so the total-function
  model is faithful.
* The `heapq` min-heap is a `List (α × Int)` treated as a multiset:
  `heappush` adds an entry and `heappop` removes a lexicographically
  minimal entry, which is exactly Python's tuple-ordered binary heap
  behaviour at the multiset level.
* The two `while` loops of `dijkstra_shortest_path` are fueled.  The fuel
  passed by `dijkstra_shortest_path` is proved sufficient under the
  nonnegative-weight hypothesis (weights are square roots), so on every
  input where the Python loop terminates the embedding agrees with it.
* Functions that mutate the map (`find_or_create_space_at`) return the
  updated map explicitly.
-/

namespace App

/-- A space dict: `{"id", "name", "type", "x", "y"}` (`app.py`, e.g. lines 216-222). -/
structure Space (α : Type) where
  id : Int
  name : String
  ty : String
  x : α
  y : α
deriving DecidableEq, Repr

/-- A hallway dict: `{"id", "name", "x1", "y1", "x2", "y2", "from_space_id",
"to_space_id"}` (`app.py` lines 693-702).  The `x1..y2` fields are the
denormalized endpoint coordinates copied at creation time. -/
structure Hallway (α : Type) where
  id : Int
  name : String
  x1 : α
  y1 : α
  x2 : α
  y2 : α
  from_space_id : Int
  to_space_id : Int
deriving DecidableEq, Repr

/-- A student schedule row: `{"student_id", "student_name", "space_ids"}`
(`app.py` lines 504-508); `space_ids` entries are `None` when the room did
not resolve. -/
structure Student where
  student_id : String
  student_name : String
  space_ids : List (Option Int)
deriving DecidableEq, Repr

/-- A map dict (`app.py` lines 39-51): graph data plus the memory-only
schedule fields (`image_filename` is irrelevant to the core and omitted). -/
structure Map (α : Type) where
  id : Int
  name : String
  spaces : List (Space α)
  hallways : List (Hallway α)
  next_space_id : Int
  next_hallway_id : Int
  period_names : List String
  student_schedules : List Student
deriving DecidableEq, Repr

variable {α : Type} [LinearOrderedCommRing α]

/-- `get_space_by_id` (`app.py` lines 150-154): first space with the id, else `None`. -/
def get_space_by_id (m : Map α) (space_id : Int) : Option (Space α) :=
  m.spaces.find? (fun s => decide (s.id = space_id))

/-- `get_space_by_name` (`app.py` lines 157-161): first space with the name, else `None`. -/
def get_space_by_name (m : Map α) (name : String) : Option (Space α) :=
  m.spaces.find? (fun s => decide (s.name = name))

/-- `SECOND_FLOOR_PROXY_SPACE_NAME` (`app.py` line 55). -/
def SECOND_FLOOR_PROXY_SPACE_NAME : String := "1st Floor Stairs"

/-- Python `str.strip()` with no argument: drop leading and trailing whitespace.
String helpers are written over the character list so that they compute by
kernel reduction (several core `String` functions recurse on byte positions
and do not). -/
def pyStrip (s : String) : String :=
  ⟨((s.data.dropWhile Char.isWhitespace).reverse.dropWhile Char.isWhitespace).reverse⟩

/-- Python `str.lower()` (ASCII case folding, which covers the `"Room "` test
of the source). -/
def pyLower (s : String) : String :=
  ⟨s.data.map Char.toLower⟩

/-- Python `str.startswith(p)`: the first `len(p)` characters equal `p`. -/
def pyStartswith (s p : String) : Bool :=
  s.data.take p.data.length = p.data

/-- Python `s[n:]`: drop the first `n` characters. -/
def pyDrop (s : String) (n : Nat) : String :=
  ⟨s.data.drop n⟩

/-- `map_virtual_room_to_real` (`app.py` lines 164-204): strip the label, drop a
case-insensitive `"Room "` prefix, keep the digit characters, and when there are
at least three digits starting with `'2'` resolve to the space named
`"1st Floor Stairs"` (if it exists); otherwise `None`. -/
def map_virtual_room_to_real (m : Map α) (room_name : String) : Option (Space α) :=
  if room_name = "" then none
  else
    let rn := pyStrip room_name
    let num_part :=
      if pyStartswith (pyLower rn) "room " then pyStrip (pyDrop rn 5) else rn
    let digits := num_part.data.filter Char.isDigit
    if 3 ≤ digits.length ∧ digits.head? = some '2' then
      match get_space_by_name m SECOND_FLOOR_PROXY_SPACE_NAME with
      | some stairs_space => some stairs_space
      | none => none
    else none

/-- The space dict literal created by `find_or_create_space_at` (twice in the
source, `app.py` lines 216-222 and 240-246), together with the counter bump and
append. -/
def newIntersection (m : Map α) (x y : α) : Space α × Map α :=
  let space : Space α :=
    { id := m.next_space_id, name := "Node " ++ toString m.next_space_id,
      ty := "Intersection", x := x, y := y }
  (space, { m with next_space_id := m.next_space_id + 1,
                   spaces := m.spaces ++ [space] })

/-- The nearest-space scan loop of `find_or_create_space_at` (`app.py` lines
229-237): the first space attaining the minimal squared distance to `(x, y)`
(strict `<` improvement), together with that squared distance. -/
def bestScan (x y : α) (spaces : List (Space α)) : Option (Space α × α) :=
  spaces.foldl
    (fun acc s =>
      let d_sq := (s.x - x) * (s.x - x) + (s.y - y) * (s.y - y)
      match acc with
      | none => some (s, d_sq)
      | some (_, bd) => if d_sq < bd then some (s, d_sq) else acc)
    none

/-- `find_or_create_space_at` (`app.py` lines 207-254).  Returns the found or
created space together with the (possibly) mutated map; a new Intersection is
created exactly when `math.sqrt(best_dist_sq) > threshold` (the default
threshold in the source is `0.03`). -/
def find_or_create_space_at (sqrt : α → α) (m : Map α) (x y : α) (threshold : α) :
    Space α × Map α :=
  if m.spaces = [] then newIntersection m x y
  else
    match bestScan x y m.spaces with
    | none =>
      -- mirrors the defensive `best_dist_sq is None` disjunct; unreachable for
      -- a nonempty space list
      newIntersection m x y
    | some (bs, bd) =>
      if threshold < sqrt bd then newIntersection m x y
      else (bs, m)

/-- The adjacency dict `graph` of `build_graph`: its key list (in Python dict
insertion order) and the adjacency lists, as a total function that is `[]` off
the keys. -/
structure Graph (α : Type) where
  keys : List Int
  adj : Int → List (Int × α × Int)

/-- The per-hallway body of `build_graph`'s arc loop (`app.py` lines 270-281):
when both endpoint ids resolve via `get_space_by_id`, append the two directed
arcs `(neighbor, dist, hallway_id)` with `dist = sqrt(dx*dx + dy*dy)` computed
from the two resolved spaces' current coordinates; otherwise leave the
adjacency dict unchanged. -/
def addHallwayArcs (sqrt : α → α) (m : Map α) (adj : Int → List (Int × α × Int))
    (h : Hallway α) : Int → List (Int × α × Int) :=
  match get_space_by_id m h.from_space_id, get_space_by_id m h.to_space_id with
  | some s1, some s2 =>
    let dx := s1.x - s2.x
    let dy := s1.y - s2.y
    let dist := sqrt (dx * dx + dy * dy)
    let adj1 := Function.update adj s1.id (adj s1.id ++ [(s2.id, dist, h.id)])
    Function.update adj1 s2.id (adj1 s2.id ++ [(s1.id, dist, h.id)])
  | _, _ => adj

/-- `build_graph` (`app.py` lines 257-283): one key per space id (Python dict
insertion order, first occurrence kept), then the arc loop over the hallways. -/
def build_graph (sqrt : α → α) (m : Map α) : Graph α :=
  { keys := m.spaces.foldl (fun ks s => if s.id ∈ ks then ks else ks ++ [s.id]) []
    adj := m.hallways.foldl (addHallwayArcs sqrt m) (fun _ => []) }

/-- The mutable state of `dijkstra_shortest_path`'s main loop: the three
per-vertex dicts and the heap. -/
structure DState (α : Type) where
  dist : Int → WithTop α
  prev : Int → Option Int
  prev_edge : Int → Option Int
  heap : List (α × Int)

/-- A lexicographically minimal element of the heap list (what `heapq.heappop`
returns for tuples), or `none` when empty. -/
def heapMin : List (α × Int) → Option (α × Int)
  | [] => none
  | e :: rest =>
    match heapMin rest with
    | none => some e
    | some mr => some (if e.1 < mr.1 ∨ (e.1 = mr.1 ∧ e.2 ≤ mr.2) then e else mr)

/-- `heapq.heappop` on the multiset model: remove one lexicographically minimal
entry. -/
def popMin (l : List (α × Int)) : Option ((α × Int) × List (α × Int)) :=
  match heapMin l with
  | none => none
  | some e => some (e, l.erase e)

/-- The body of the relaxation loop (`app.py` lines 309-315) on one arc
`(v, weight, hallway_id)`: if `alt = current_dist + weight` improves `dist[v]`,
record distance, predecessor and predecessor edge, and push the new entry. -/
def relaxArc (u : Int) (current_dist : α) (st : DState α)
    (arc : Int × α × Int) : DState α :=
  let alt := current_dist + arc.2.1
  if (alt : WithTop α) < st.dist arc.1 then
    { dist := Function.update st.dist arc.1 (alt : WithTop α)
      prev := Function.update st.prev arc.1 (some u)
      prev_edge := Function.update st.prev_edge arc.1 (some arc.2.2)
      heap := (alt, arc.1) :: st.heap }
  else st

/-- The relaxation pass over `graph[u]` (`app.py` lines 309-315). -/
def relax (g : Graph α) (u : Int) (current_dist : α) (st : DState α) : DState α :=
  (g.adj u).foldl (relaxArc u current_dist) st

/-- The fueled `while heap:` loop of `dijkstra_shortest_path` (`app.py` lines
302-315): pop the minimal entry, skip it when stale (`current_dist > dist[u]`),
break when the end vertex is popped, otherwise relax its arcs.  The fuel passed
by `dijkstra_shortest_path` is proved sufficient for nonnegative weights. -/
def dloop (g : Graph α) (end_id : Int) : Nat → DState α → DState α
  | 0, st => st
  | fuel + 1, st =>
    match popMin st.heap with
    | none => st
    | some ((current_dist, u), rest) =>
      if (current_dist : WithTop α) > st.dist u then
        dloop g end_id fuel { st with heap := rest }
      else if u = end_id then
        { st with heap := rest }
      else
        dloop g end_id fuel (relax g u current_dist { st with heap := rest })

/-- Total number of directed arcs of the graph (used as loop fuel: each arc is
relaxed at most once, so the loop pops at most `totalArcs + 1` entries). -/
def totalArcs (g : Graph α) : Nat :=
  (g.keys.map (fun k => (g.adj k).length)).sum

/-- The fueled `while current is not None:` reconstruction loop (`app.py` lines
323-326), producing `[end_id, prev end_id, ...]`.  The predecessor chain is
acyclic and visits settled vertices, so fuel `graph.keys.length + 1` suffices. -/
def followPrev (prev : Int → Option Int) : Nat → Option Int → List Int
  | _, none => []
  | 0, some _ => []
  | fuel + 1, some current => current :: followPrev prev fuel (prev current)

/-- `dijkstra_shortest_path` (`app.py` lines 286-336).  Returns
`none` for the `(None, None)` unreachable result, otherwise
`some (space_path, hallway_path)`. -/
def dijkstra_shortest_path (sqrt : α → α) (m : Map α) (start_id end_id : Int) :
    Option (List Int × List Int) :=
  let graph := build_graph sqrt m
  if start_id ∉ graph.keys ∨ end_id ∉ graph.keys then none
  else
    let st0 : DState α :=
      { dist := Function.update (fun _ => (⊤ : WithTop α)) start_id ((0 : α) : WithTop α)
        prev := fun _ => none
        prev_edge := fun _ => none
        heap := [((0 : α), start_id)] }
    let stf := dloop graph end_id (totalArcs graph + 1) st0
    if stf.dist end_id = ⊤ then none
    else
      let space_path := (followPrev stf.prev (graph.keys.length + 1) (some end_id)).reverse
      let hallway_path := (space_path.drop 1).filterMap stf.prev_edge
      some (space_path, hallway_path)

/-- Result of the `/route` operation's core (`app.py` lines 772-795), after the
HTTP-level map/id parsing. -/
inductive RouteResult where
  | notFound : RouteResult
  | ok : List Int → List Int → RouteResult
  | unreachable : RouteResult
deriving DecidableEq, Repr

/-- The `/route` handler core (`app.py` lines 772-795), parametrized by the
shortest-path engine so that non-invocation of the engine in the identity case
is expressible: existence checks, the `start_id == end_id` special case, then
the engine. -/
def route_with (engine : Int → Int → Option (List Int × List Int)) (m : Map α)
    (start_id end_id : Int) : RouteResult :=
  if (get_space_by_id m start_id).isNone ∨ (get_space_by_id m end_id).isNone then
    RouteResult.notFound
  else if start_id = end_id then
    RouteResult.ok [start_id] []
  else
    match engine start_id end_id with
    | none => RouteResult.unreachable
    | some (sp, hp) => RouteResult.ok sp hp

/-- The `/route` handler core with the engine of the source,
`dijkstra_shortest_path`. -/
def route (sqrt : α → α) (m : Map α) (start_id end_id : Int) : RouteResult :=
  route_with (fun a b => dijkstra_shortest_path sqrt m a b) m start_id end_id

/-- `counts[h_id] = counts.get(h_id, 0) + 1` on an insertion-ordered dict
modelled as an association list: update in place, else append. -/
def dictIncr (counts : List (Int × Nat)) (k : Int) : List (Int × Nat) :=
  match counts with
  | [] => [(k, 1)]
  | (k₁, v) :: rest => if k₁ = k then (k₁, v + 1) :: rest else (k₁, v) :: dictIncr rest k

/-- Python `range(a, b)` over `Int` endpoints. -/
def pyRange (a b : Int) : List Int :=
  (List.range (b - a).toNat).map (fun i : Nat => a + (i : Int))

/-- The per-transition body of `compute_congestion`'s inner loop (`app.py`
lines 834-860): skip null endpoints, skip `s_from == s_to`, apply the
endpoint/direction filter, run Dijkstra, and count the trip and its hallways
unless the result is unreachable or the hallway path is empty. -/
def congestionPair (sqrt : α → α) (m : Map α) (filter_space_id : Option Int)
    (filter_direction : String) (acc : List (Int × Nat) × Nat)
    (s_from s_to : Option Int) : List (Int × Nat) × Nat :=
  match s_from, s_to with
  | some a, some b =>
    if a = b then acc
    else
      let skip :=
        match filter_space_id with
        | none => false
        | some fid =>
          if filter_direction = "arriving" then decide (b ≠ fid)
          else if filter_direction = "leaving" then decide (a ≠ fid)
          else decide (a ≠ fid ∧ b ≠ fid)
      if skip then acc
      else
        match dijkstra_shortest_path sqrt m a b with
        | none => acc
        | some (_, hallway_path) =>
          if hallway_path = [] then acc
          else (hallway_path.foldl dictIncr acc.1, acc.2 + 1)
  | _, _ => acc

/-- The per-student body of `compute_congestion`'s outer loop (`app.py` lines
826-860): skip a student whose `space_ids` does not reach past `to_index`,
otherwise process every consecutive pair in `range(from_index, to_index)`. -/
def congestionStudent (sqrt : α → α) (m : Map α) (from_index to_index : Int)
    (filter_space_id : Option Int) (filter_direction : String)
    (acc : List (Int × Nat) × Nat) (student : Student) : List (Int × Nat) × Nat :=
  if (student.space_ids.length : Int) ≤ to_index then acc
  else
    (pyRange from_index to_index).foldl
      (fun acc p =>
        congestionPair sqrt m filter_space_id filter_direction acc
          (student.space_ids.getD p.toNat none)
          (student.space_ids.getD (p + 1).toNat none))
      acc

/-- `compute_congestion` (`app.py` lines 800-862): the validation early
returns, then the two nested loops.  Returns the hallway-count dict (as an
insertion-ordered association list) and `total_trips`. -/
def compute_congestion (sqrt : α → α) (m : Map α) (from_index to_index : Int)
    (filter_space_id : Option Int) (filter_direction : String) :
    List (Int × Nat) × Nat :=
  if m.period_names = [] ∨ m.student_schedules = [] then ([], 0)
  else if from_index < 0 ∨ to_index ≤ from_index then ([], 0)
  else if (m.period_names.length : Int) ≤ to_index then ([], 0)
  else
    m.student_schedules.foldl
      (congestionStudent sqrt m from_index to_index filter_space_id filter_direction)
      ([], 0)

/-- A walk in the built graph from `a` to `c`, carrying the vertex list, the
list of traversed arc (hallway) ids and its total weight: `nil` is the
single-vertex walk at a graph vertex, `snoc` extends a walk by one arc of the
adjacency structure. -/
inductive Walk (g : Graph α) (a : Int) : Int → List Int → List Int → α → Prop
  | nil (ha : a ∈ g.keys) : Walk g a a [a] [] 0
  | snoc {b c : Int} {vs hs : List Int} {w ω : α} {hid : Int}
      (hw : Walk g a b vs hs ω) (harc : (c, w, hid) ∈ g.adj b) :
      Walk g a c (vs ++ [c]) (hs ++ [hid]) (ω + w)

/-- All arc weights of the graph are nonnegative (true of the built graph,
whose weights are square roots). -/
def NonnegWeights (g : Graph α) : Prop :=
  ∀ u v w hid, (v, w, hid) ∈ g.adj u → 0 ≤ w

/-- Every arc of the graph points into the key list (true of the built graph,
whose arcs join resolved spaces). -/
def ClosedGraph (g : Graph α) : Prop :=
  ∀ u v w hid, (v, w, hid) ∈ g.adj u → v ∈ g.keys

/-- The invariant of Dijkstra's main loop, relative to the ghost list `L` of
settled vertices in settling order.  `dist`/`prev`/`prev_edge` are the live
dicts, the heap holds pending entries; settled vertices are fully relaxed and
optimal, unsettled reached vertices keep a current heap entry, and the
predecessor structure records, for every reached vertex, an arc from an
earlier-settled vertex realizing its distance. -/
structure DInv (g : Graph α) (start : Int) (L : List Int) (st : DState α) : Prop where
  hnodup : L.Nodup
  hLkeys : ∀ u ∈ L, u ∈ g.keys
  hheap : ∀ d v, (d, v) ∈ st.heap → v ∈ g.keys ∧ 0 ≤ d ∧ st.dist v ≤ (d : WithTop α)
  hfrontier : ∀ v, v ∉ L → st.dist v ≠ ⊤ →
    ∃ d : α, (d, v) ∈ st.heap ∧ st.dist v = (d : WithTop α)
  hrelaxed : ∀ u ∈ L, ∀ v w hid, (v, w, hid) ∈ g.adj u →
    st.dist v ≤ st.dist u + (w : WithTop α)
  hLdist : ∀ u ∈ L, st.dist u ≠ ⊤
  hopt : ∀ u ∈ L, ∀ vs hs ω, Walk g start u vs hs ω → st.dist u ≤ (ω : WithTop α)
  hreal : ∀ v (dv : α), st.dist v = (dv : WithTop α) → ∃ vs hs, Walk g start v vs hs dv
  hpv : ∀ v, st.dist v ≠ ⊤ → v ≠ start →
    ∃ u w hid, st.prev v = some u ∧ st.prev_edge v = some hid ∧
      (v, w, hid) ∈ g.adj u ∧ u ∈ L ∧ st.dist u + (w : WithTop α) = st.dist v ∧
      (v ∈ L → L.indexOf u < L.indexOf v)
  hstart : st.dist start = 0 ∧ st.prev start = none

/-- Termination potential of the main loop: pending heap entries plus the
arcs of the not-yet-settled keys (each iteration strictly decreases it). -/
def dPhi (g : Graph α) (L : List Int) (st : DState α) : Nat :=
  st.heap.length +
    ((g.keys.filter (fun k => decide (k ∉ L))).map (fun k => (g.adj k).length)).sum

/-- What holds of the loop's exit state: the predecessor structure supports
path reconstruction, and if the end vertex was reached its distance is a lower
bound realized over all walks. -/
def DPost (g : Graph α) (start endv : Int) (st : DState α) : Prop :=
  ∃ L : List Int, L.Nodup ∧ (∀ u ∈ L, u ∈ g.keys) ∧
    (∀ u ∈ L, st.dist u ≠ ⊤) ∧
    (st.dist start = 0 ∧ st.prev start = none) ∧
    (∀ v, st.dist v ≠ ⊤ → v ≠ start →
      ∃ u w hid, st.prev v = some u ∧ st.prev_edge v = some hid ∧
        (v, w, hid) ∈ g.adj u ∧ u ∈ L ∧ st.dist u + (w : WithTop α) = st.dist v ∧
        (v ∈ L → L.indexOf u < L.indexOf v)) ∧
    (st.dist endv ≠ ⊤ → endv ∈ L ∧
      ∀ vs hs ω, Walk g start endv vs hs ω → st.dist endv ≤ (ω : WithTop α))

/-- Intermediate invariant through the relaxation pass of a newly settled
vertex `u`, popped with key `d`; `L2` is the settled list with `u` already
appended and `st0` is the state at pop time (the heap aside). -/
structure RInv (g : Graph α) (start : Int) (L2 : List Int) (st0 : DState α)
    (u : Int) (d : α) (stp : DState α) : Prop where
  hfix : ∀ x ∈ L2, stp.dist x = st0.dist x
  hstart0 : stp.dist start = 0 ∧ stp.prev start = none
  hmono : ∀ x, stp.dist x ≤ st0.dist x
  hheap : ∀ d2 v, (d2, v) ∈ stp.heap →
    v ∈ g.keys ∧ 0 ≤ d2 ∧ stp.dist v ≤ (d2 : WithTop α)
  hfrontier : ∀ v, v ∉ L2 → stp.dist v ≠ ⊤ →
    ∃ d2 : α, (d2, v) ∈ stp.heap ∧ stp.dist v = (d2 : WithTop α)
  hreal : ∀ v (dv : α), stp.dist v = (dv : WithTop α) → ∃ vs hs, Walk g start v vs hs dv
  hpv : ∀ v, stp.dist v ≠ ⊤ → v ≠ start →
    ∃ u2 w hid, stp.prev v = some u2 ∧ stp.prev_edge v = some hid ∧
      (v, w, hid) ∈ g.adj u2 ∧ u2 ∈ L2 ∧ stp.dist u2 + (w : WithTop α) = stp.dist v ∧
      (v ∈ L2 → L2.indexOf u2 < L2.indexOf v)

/-! Concrete test fixtures over `ℤ` used by the closed witness theorems.  With
the identity in place of `math.sqrt`, arc weights are squared distances, which
keeps every evaluation integral and kernel-decidable. -/

/-- A concrete space for the fixtures. -/
def exSpace (i : Int) (x y : ℤ) : Space ℤ :=
  { id := i, name := "S" ++ toString i, ty := "Classroom", x := x, y := y }

/-- A concrete hallway for the fixtures (the denormalized coordinates are
irrelevant to every claim and left at zero). -/
def exHallway (i a b : Int) : Hallway ℤ :=
  { id := i, name := "H" ++ toString i, x1 := 0, y1 := 0, x2 := 0, y2 := 0,
    from_space_id := a, to_space_id := b }

/-- Fixture map: spaces `1..4` on a line plus an isolated space, hallways
`1-2`, `2-3` (weight 1 each under the identity square root), a long direct
hallway `1-3` (weight 4) and a dangling hallway referencing the missing space
`9`. -/
def exMap : Map ℤ :=
  { id := 1, name := "M",
    spaces := [exSpace 1 0 0, exSpace 2 1 0, exSpace 3 2 0, exSpace 4 0 5],
    hallways := [exHallway 1 1 2, exHallway 2 2 3, exHallway 3 1 3, exHallway 4 9 3],
    next_space_id := 5, next_hallway_id := 5,
    period_names := [], student_schedules := [] }

/-- A concrete student schedule row. -/
def exStudent (l : List (Option Int)) : Student :=
  { student_id := "1", student_name := "A", space_ids := l }

/-- Fixture map with a loaded three-period schedule for two students. -/
def exMapSched : Map ℤ :=
  { exMap with period_names := ["P1", "P2", "P3"],
               student_schedules := [exStudent [some 1, some 2, some 3],
                                     exStudent [some 1, some 1, some 3]] }

/-- Fixture map with four periods but a two-entry (short) schedule row. -/
def exMapShort : Map ℤ :=
  { exMap with period_names := ["P1", "P2", "P3", "P4"],
               student_schedules := [exStudent [some 1, some 2]] }

/-- Fixture map containing the second-floor proxy space `"1st Floor Stairs"`. -/
def exMapStairs : Map ℤ :=
  { exMap with spaces := exMap.spaces ++
      [{ exSpace 7 3 3 with name := "1st Floor Stairs" }] }

/-! ### C3: invalid period window -/

/-- C3: whenever the pair of period indices violates
`0 ≤ fromPeriodIndex < toPeriodIndex < len(period_names)`,
`compute_congestion` returns the empty hallway-count mapping and zero total
trips (it is a total function, so no error is raised). -/
theorem compute_congestion_invalid_range (sqrt : α → α) (m : Map α)
    (from_index to_index : Int) (fsid : Option Int) (fdir : String)
    (h : ¬ (0 ≤ from_index ∧ from_index < to_index ∧
        to_index < (m.period_names.length : Int))) :
    compute_congestion sqrt m from_index to_index fsid fdir = ([], 0) := by
  unfold compute_congestion
  split_ifs with h1 h2 h3
  · rfl
  · rfl
  · rfl
  · push_neg at h2 h3
    exact absurd ⟨h2.1, h2.2, h3⟩ h

/-- Witness for C3: a concrete non-increasing window on the schedule fixture. -/
theorem compute_congestion_invalid_range_witness :
    compute_congestion (fun a : ℤ => a) exMapSched 2 1 none "any" = ([], 0) :=
  compute_congestion_invalid_range _ exMapSched 2 1 none "any" (by decide)

/-! ### C6: identity routing -/

/-- C6: for a space id that exists in the map, routing it to itself returns the
single-space path with an empty hallway list — uniformly in the shortest-path
engine, so the engine of the source is never consulted. -/
theorem route_identity (sqrt : α → α) (m : Map α) (s : Int) (sp : Space α)
    (hs : get_space_by_id m s = some sp) :
    route sqrt m s s = RouteResult.ok [s] [] ∧
    ∀ engine : Int → Int → Option (List Int × List Int),
      route_with engine m s s = RouteResult.ok [s] [] := by
  have key : ∀ engine : Int → Int → Option (List Int × List Int),
      route_with engine m s s = RouteResult.ok [s] [] := by
    intro engine
    unfold route_with
    simp [hs]
  exact ⟨key _, key⟩

/-- Witness for C6 at space `2` of the fixture map. -/
theorem route_identity_witness :
    route (fun a : ℤ => a) exMap 2 2 = RouteResult.ok [2] [] ∧
    ∀ engine : Int → Int → Option (List Int × List Int),
      route_with engine exMap 2 2 = RouteResult.ok [2] [] :=
  route_identity _ exMap 2 (exSpace 2 1 0) (by decide)

/-! ### C7: the endpoint/direction filter -/

/-- Helper for C7: when the direction condition fails, the per-transition body
leaves the accumulator unchanged. -/
theorem congestionPair_skipped (sqrt : α → α) (m : Map α) (fid : Int)
    (fdir : String) (acc : List (Int × Nat) × Nat) (a b : Int)
    (hskip : if fdir = "arriving" then b ≠ fid
             else if fdir = "leaving" then a ≠ fid
             else a ≠ fid ∧ b ≠ fid) :
    congestionPair sqrt m (some fid) fdir acc (some a) (some b) = acc := by
  unfold congestionPair
  by_cases hab : a = b
  · simp [hab]
  split_ifs at hskip with harr hleave
  · simp [hab, harr, hskip]
  · simp [hab, harr, hleave, hskip]
  · simp [hab, harr, hleave, hskip.1, hskip.2]

/-- C7: with `filterSpaceId` set, a transition pair is counted (the trip
counter moves) only if: under `"leaving"` the origin is the filter space,
under `"arriving"` the destination is, and under any other direction string
(including `"any"`) at least one endpoint is. -/
theorem congestion_filter_direction (sqrt : α → α) (m : Map α) (fid : Int)
    (fdir : String) (acc : List (Int × Nat) × Nat) (a b : Int)
    (hcount : (congestionPair sqrt m (some fid) fdir acc (some a) (some b)).2 ≠ acc.2) :
    (fdir = "leaving" → a = fid) ∧ (fdir = "arriving" → b = fid) ∧
    (fdir ≠ "leaving" → fdir ≠ "arriving" → a = fid ∨ b = fid) := by
  refine ⟨?_, ?_, ?_⟩
  · intro hdir
    subst hdir
    by_contra haf
    exact hcount (by rw [congestionPair_skipped sqrt m fid _ acc a b (by simp [haf])])
  · intro hdir
    subst hdir
    by_contra hbf
    exact hcount (by rw [congestionPair_skipped sqrt m fid _ acc a b (by simp [hbf])])
  · intro hl ha
    by_contra hor
    push_neg at hor
    exact hcount (by
      rw [congestionPair_skipped sqrt m fid _ acc a b (by simp [ha, hl, hor.1, hor.2])])

/-- Witness for C7: an arriving-filtered pair on the fixture that is counted. -/
theorem congestion_filter_direction_witness :
    ("arriving" = "leaving" → (1 : Int) = 3) ∧
    ("arriving" = "arriving" → (3 : Int) = 3) ∧
    ("arriving" ≠ "leaving" → "arriving" ≠ "arriving" → (1 : Int) = 3 ∨ (3 : Int) = 3) :=
  congestion_filter_direction (fun a : ℤ => a) exMap 3 "arriving" ([], 0) 1 3
    (by decide)

/-! ### C8: schedule-length eligibility -/

/-- Counterexample to C8 as stated: in `exMapShort` the only schedule row is
strictly shorter than `period_names` (2 entries against 4 periods), yet
`compute_congestion` over the window `(0, 1)` counts one trip from it, so a
schedule shorter than `period_names` is not always skipped. -/
theorem congestion_short_schedule_counterexample :
    exMapShort.student_schedules = [exStudent [some 1, some 2]] ∧
    (exStudent [some 1, some 2]).space_ids.length < exMapShort.period_names.length ∧
    (compute_congestion (fun a : ℤ => a) exMapShort 0 1 none "any").2 = 1 := by
  refine ⟨rfl, by decide, by decide⟩

/-- C8 as amended: a schedule row contributes transitions only if its
`space_ids` reaches past `toPeriodIndex`; a row with
`len(space_ids) ≤ toPeriodIndex` is skipped entirely, so deleting it does not
change the congestion result at all. -/
theorem congestion_skips_short_schedules (sqrt : α → α) (m : Map α)
    (from_index to_index : Int) (fsid : Option Int) (fdir : String)
    (pre post : List Student) (stu : Student)
    (hshort : (stu.space_ids.length : Int) ≤ to_index) :
    compute_congestion sqrt { m with student_schedules := pre ++ stu :: post }
        from_index to_index fsid fdir =
      compute_congestion sqrt { m with student_schedules := pre ++ post }
        from_index to_index fsid fdir := by
  -- the two maps differ only in their schedule list, which the per-student
  -- step never reads (it reads its `student` argument); so the step functions
  -- are definitionally equal
  have hcong : congestionStudent sqrt { m with student_schedules := pre ++ stu :: post }
        from_index to_index fsid fdir =
      congestionStudent sqrt { m with student_schedules := pre ++ post }
        from_index to_index fsid fdir := rfl
  have hstu : ∀ acc, congestionStudent sqrt
      { m with student_schedules := pre ++ stu :: post }
      from_index to_index fsid fdir acc stu = acc := by
    intro acc
    unfold congestionStudent
    rw [if_pos hshort]
  by_cases hpn : m.period_names = []
  · unfold compute_congestion
    simp [hpn]
  by_cases hr1 : from_index < 0 ∨ to_index ≤ from_index
  · unfold compute_congestion
    simp [hpn, hr1]
  by_cases hr2 : (m.period_names.length : Int) ≤ to_index
  · unfold compute_congestion
    simp [hpn, hr1, hr2]
  have eqL : compute_congestion sqrt { m with student_schedules := pre ++ stu :: post }
      from_index to_index fsid fdir =
      (pre ++ stu :: post).foldl
        (congestionStudent sqrt { m with student_schedules := pre ++ stu :: post }
          from_index to_index fsid fdir) ([], 0) := by
    unfold compute_congestion
    dsimp only
    rw [if_neg (by simp [hpn]), if_neg hr1, if_neg hr2]
  by_cases hpp : pre ++ post = []
  · obtain ⟨hpre, hpost⟩ := List.append_eq_nil.mp hpp
    subst hpre
    subst hpost
    have eqR : compute_congestion sqrt { m with student_schedules := ([] : List Student) ++ [] }
        from_index to_index fsid fdir = ([], 0) := by
      unfold compute_congestion
      dsimp only
      rw [if_pos (show m.period_names = [] ∨ ([] : List Student) ++ [] = [] from
        Or.inr rfl)]
    rw [eqL, eqR]
    simpa using hstu ([], 0)
  · have eqR : compute_congestion sqrt { m with student_schedules := pre ++ post }
        from_index to_index fsid fdir =
        (pre ++ post).foldl
          (congestionStudent sqrt { m with student_schedules := pre ++ post }
            from_index to_index fsid fdir) ([], 0) := by
      unfold compute_congestion
      dsimp only
      rw [if_neg (by simp [hpn, hpp]), if_neg hr1, if_neg hr2]
    rw [eqL, eqR, ← hcong, List.foldl_append, List.foldl_append, List.foldl_cons, hstu]

/-- Witness for C8 (amended): removing the two-period row from the short
fixture leaves the three-period congestion result unchanged. -/
theorem congestion_skips_short_schedules_witness :
    compute_congestion (fun a : ℤ => a)
        { exMapShort with student_schedules := [] ++ exStudent [some 1, some 2] :: [] }
        0 2 none "any" =
      compute_congestion (fun a : ℤ => a)
        { exMapShort with student_schedules := ([] : List Student) ++ [] } 0 2 none "any" :=
  congestion_skips_short_schedules _ exMapShort 0 2 none "any" [] []
    (exStudent [some 1, some 2]) (by decide)

/-! ### C9: the room-alias resolver -/

/-- C9: for a room label with no exact space-name match, and a map containing
the designated proxy space (the space named `"1st Floor Stairs"`), the
resolver strips the label, drops a leading case-insensitive `"Room "` prefix,
keeps the digit characters of the remainder, and resolves to the proxy space
exactly when there are at least three digits and the first is `'2'`; every
other unmatched label resolves to `none`. -/
theorem map_virtual_room_resolution (m : Map α) (label : String) (stairs : Space α)
    (hexact : get_space_by_name m label = none)
    (hst : get_space_by_name m SECOND_FLOOR_PROXY_SPACE_NAME = some stairs) :
    map_virtual_room_to_real m label =
      (let rn := pyStrip label
       let num_part :=
         if pyStartswith (pyLower rn) "room " then pyStrip (pyDrop rn 5) else rn
       let digits := num_part.data.filter Char.isDigit
       if 3 ≤ digits.length ∧ digits.head? = some '2' then some stairs else none) := by
  by_cases hempty : label = ""
  · subst hempty
    rfl
  · unfold map_virtual_room_to_real
    rw [if_neg hempty]
    dsimp only
    split_ifs <;> first | rw [hst] | rfl

/-- Witness for C9: `"Room 201A"` on the stairs fixture resolves to the proxy
space (its digit characters are `201`). -/
theorem map_virtual_room_resolution_witness :
    map_virtual_room_to_real exMapStairs "Room 201A" =
      (let rn := pyStrip "Room 201A"
       let num_part :=
         if pyStartswith (pyLower rn) "room " then pyStrip (pyDrop rn 5) else rn
       let digits := num_part.data.filter Char.isDigit
       if 3 ≤ digits.length ∧ digits.head? = some '2' then
         some { exSpace 7 3 3 with name := "1st Floor Stairs" }
       else none) :=
  map_virtual_room_resolution exMapStairs "Room 201A"
    { exSpace 7 3 3 with name := "1st Floor Stairs" } (by decide) (by decide)

/-! ### C4: snapper threshold behaviour -/

/-- Specification of the nearest-space scan: a result is a space of the list
whose recorded squared distance is its own and is minimal over the list (and
no greater than the squared distance of any accumulator candidate). -/
theorem bestScan_foldl_spec (x y : α) :
    ∀ (l : List (Space α)) (acc : Option (Space α × α)) (q : Space α × α),
      l.foldl
          (fun acc s =>
            let d_sq := (s.x - x) * (s.x - x) + (s.y - y) * (s.y - y)
            match acc with
            | none => some (s, d_sq)
            | some (_, bd) => if d_sq < bd then some (s, d_sq) else acc)
          acc = some q →
      (acc = some q ∨ (q.1 ∈ l ∧
          q.2 = (q.1.x - x) * (q.1.x - x) + (q.1.y - y) * (q.1.y - y))) ∧
      (∀ s ∈ l, q.2 ≤ (s.x - x) * (s.x - x) + (s.y - y) * (s.y - y)) ∧
      (∀ p, acc = some p → q.2 ≤ p.2) := by
  intro l
  induction l with
  | nil =>
    intro acc q hfold
    simp only [List.foldl_nil] at hfold
    refine ⟨Or.inl hfold, by simp, ?_⟩
    intro p hp
    rw [hfold] at hp
    cases hp
    exact le_refl _
  | cons s l ih =>
    intro acc q hfold
    rw [List.foldl_cons] at hfold
    cases acc with
    | none =>
      obtain ⟨h1, h2, h3⟩ := ih _ q hfold
      refine ⟨?_, ?_, ?_⟩
      · rcases h1 with h1 | h1
        · cases h1
          exact Or.inr ⟨List.mem_cons_self _ _, rfl⟩
        · exact Or.inr ⟨List.mem_cons_of_mem _ h1.1, h1.2⟩
      · intro t ht
        rcases List.mem_cons.mp ht with rfl | ht
        · exact h3 _ rfl
        · exact h2 _ ht
      · intro p hp
        cases hp
    | some pr =>
      obtain ⟨bs0, bd0⟩ := pr
      dsimp only at hfold
      by_cases hlt : (s.x - x) * (s.x - x) + (s.y - y) * (s.y - y) < bd0
      · rw [if_pos hlt] at hfold
        obtain ⟨h1, h2, h3⟩ := ih _ q hfold
        refine ⟨?_, ?_, ?_⟩
        · rcases h1 with h1 | h1
          · cases h1
            exact Or.inr ⟨List.mem_cons_self _ _, rfl⟩
          · exact Or.inr ⟨List.mem_cons_of_mem _ h1.1, h1.2⟩
        · intro t ht
          rcases List.mem_cons.mp ht with rfl | ht
          · exact h3 _ rfl
          · exact h2 _ ht
        · intro p hp
          cases hp
          exact le_of_lt (lt_of_le_of_lt (h3 _ rfl) hlt)
      · rw [if_neg hlt] at hfold
        obtain ⟨h1, h2, h3⟩ := ih _ q hfold
        refine ⟨?_, ?_, ?_⟩
        · rcases h1 with h1 | h1
          · exact Or.inl h1
          · exact Or.inr ⟨List.mem_cons_of_mem _ h1.1, h1.2⟩
        · intro t ht
          rcases List.mem_cons.mp ht with rfl | ht
          · exact le_trans (h3 _ rfl) (not_lt.mp hlt)
          · exact h2 _ ht
        · exact h3

/-- For a nonempty space list, `bestScan` returns a member of the list
attaining the minimal squared distance to `(x, y)`, recorded together with
that squared distance. -/
theorem bestScan_spec (x y : α) (l : List (Space α)) (hne : l ≠ []) :
    ∃ bs bd, bestScan x y l = some (bs, bd) ∧ bs ∈ l ∧
      bd = (bs.x - x) * (bs.x - x) + (bs.y - y) * (bs.y - y) ∧
      ∀ s ∈ l, bd ≤ (s.x - x) * (s.x - x) + (s.y - y) * (s.y - y) := by
  have hsome : ∀ (l₂ : List (Space α)) (p : Space α × α),
      ∃ q : Space α × α,
        l₂.foldl
          (fun acc s =>
            let d_sq := (s.x - x) * (s.x - x) + (s.y - y) * (s.y - y)
            match acc with
            | none => some (s, d_sq)
            | some (_, bd) => if d_sq < bd then some (s, d_sq) else acc)
          (some p) = some q := by
    intro l₂
    induction l₂ with
    | nil => exact fun p => ⟨p, rfl⟩
    | cons t l₂ ih =>
      rintro ⟨p1, p2⟩
      rw [List.foldl_cons]
      dsimp only
      by_cases hlt : (t.x - x) * (t.x - x) + (t.y - y) * (t.y - y) < p2
      · rw [if_pos hlt]
        exact ih _
      · rw [if_neg hlt]
        exact ih _
  obtain ⟨s, l', rfl⟩ := List.exists_cons_of_ne_nil hne
  obtain ⟨q, hq⟩ :=
    hsome l' (s, (s.x - x) * (s.x - x) + (s.y - y) * (s.y - y))
  have hfold : (s :: l').foldl
      (fun acc s =>
        let d_sq := (s.x - x) * (s.x - x) + (s.y - y) * (s.y - y)
        match acc with
        | none => some (s, d_sq)
        | some (_, bd) => if d_sq < bd then some (s, d_sq) else acc)
      none = some q := by
    rw [List.foldl_cons]
    exact hq
  obtain ⟨h1, h2, _⟩ := bestScan_foldl_spec x y (s :: l') none q hfold
  rcases h1 with h1 | h1
  · cases h1
  · exact ⟨q.1, q.2, hfold, h1.1, h1.2, h2⟩

/-- C4: on a non-empty map, `find_or_create_space_at` creates and returns a
new Intersection at exactly `(x, y)` (appending it and bumping the counter)
exactly when every existing space is strictly farther than the threshold
(`sqrt(min_dist_sq) > threshold`, i.e. `threshold² < min_dist_sq`); when some
space is at distance at most the threshold — the boundary case included — it
returns an existing space of minimal distance and the map, hence the space
count, is unchanged. -/
theorem find_or_create_space_threshold (sqrt : α → α) (m : Map α) (x y threshold : α)
    (hne : m.spaces ≠ [])
    (hsq : ∀ a : α, 0 ≤ a → (threshold < sqrt a ↔ threshold * threshold < a)) :
    ((∀ s ∈ m.spaces,
        threshold * threshold < (s.x - x) * (s.x - x) + (s.y - y) * (s.y - y)) →
      find_or_create_space_at sqrt m x y threshold =
        ({ id := m.next_space_id, name := "Node " ++ toString m.next_space_id,
           ty := "Intersection", x := x, y := y },
         { m with next_space_id := m.next_space_id + 1,
                  spaces := m.spaces ++
                    [{ id := m.next_space_id,
                       name := "Node " ++ toString m.next_space_id,
                       ty := "Intersection", x := x, y := y }] }) ∧
      (find_or_create_space_at sqrt m x y threshold).2.spaces.length =
        m.spaces.length + 1) ∧
    ((∃ s ∈ m.spaces,
        (s.x - x) * (s.x - x) + (s.y - y) * (s.y - y) ≤ threshold * threshold) →
      (find_or_create_space_at sqrt m x y threshold).1 ∈ m.spaces ∧
      (∀ s ∈ m.spaces,
        ((find_or_create_space_at sqrt m x y threshold).1.x - x) *
            ((find_or_create_space_at sqrt m x y threshold).1.x - x) +
          ((find_or_create_space_at sqrt m x y threshold).1.y - y) *
            ((find_or_create_space_at sqrt m x y threshold).1.y - y) ≤
          (s.x - x) * (s.x - x) + (s.y - y) * (s.y - y)) ∧
      (find_or_create_space_at sqrt m x y threshold).2 = m) := by
  obtain ⟨bs, bd, hscan, hmem, hbd, hmin⟩ := bestScan_spec x y m.spaces hne
  have hr : find_or_create_space_at sqrt m x y threshold =
      if threshold < sqrt bd then newIntersection m x y else (bs, m) := by
    unfold find_or_create_space_at
    rw [if_neg hne, hscan]
  have hbd0 : 0 ≤ bd := by
    rw [hbd]
    exact add_nonneg (mul_self_nonneg _) (mul_self_nonneg _)
  constructor
  · intro hall
    have hcond : threshold < sqrt bd :=
      (hsq bd hbd0).mpr (by rw [hbd]; exact hall bs hmem)
    rw [hr, if_pos hcond]
    exact ⟨rfl, by simp [newIntersection]⟩
  · rintro ⟨s, hs, hsle⟩
    have hcond : ¬ threshold < sqrt bd := by
      rw [hsq bd hbd0]
      exact not_lt.mpr (le_trans (hmin s hs) hsle)
    rw [hr, if_neg hcond]
    refine ⟨hmem, ?_, rfl⟩
    intro s2 hs2
    have hture := hmin s2 hs2
    rw [hbd] at hture
    exact hture

/-- Witness for C4: both branches instantiated at the fixture map, the point
`(10, 10)` and threshold `2`, with a square-root model that is exact on the
comparison against `2`. -/
theorem find_or_create_space_threshold_witness :
    ((∀ s ∈ exMap.spaces,
        (2 : ℤ) * 2 < (s.x - 10) * (s.x - 10) + (s.y - 10) * (s.y - 10)) →
      find_or_create_space_at (fun a : ℤ => if 4 < a then 5 else 0) exMap 10 10 2 =
        ({ id := exMap.next_space_id, name := "Node " ++ toString exMap.next_space_id,
           ty := "Intersection", x := 10, y := 10 },
         { exMap with next_space_id := exMap.next_space_id + 1,
                      spaces := exMap.spaces ++
                        [{ id := exMap.next_space_id,
                           name := "Node " ++ toString exMap.next_space_id,
                           ty := "Intersection", x := 10, y := 10 }] }) ∧
      (find_or_create_space_at (fun a : ℤ => if 4 < a then 5 else 0)
          exMap 10 10 2).2.spaces.length = exMap.spaces.length + 1) ∧
    ((∃ s ∈ exMap.spaces,
        (s.x - 10) * (s.x - 10) + (s.y - 10) * (s.y - 10) ≤ (2 : ℤ) * 2) →
      (find_or_create_space_at (fun a : ℤ => if 4 < a then 5 else 0)
          exMap 10 10 2).1 ∈ exMap.spaces ∧
      (∀ s ∈ exMap.spaces,
        ((find_or_create_space_at (fun a : ℤ => if 4 < a then 5 else 0)
              exMap 10 10 2).1.x - 10) *
            ((find_or_create_space_at (fun a : ℤ => if 4 < a then 5 else 0)
              exMap 10 10 2).1.x - 10) +
          ((find_or_create_space_at (fun a : ℤ => if 4 < a then 5 else 0)
              exMap 10 10 2).1.y - 10) *
            ((find_or_create_space_at (fun a : ℤ => if 4 < a then 5 else 0)
              exMap 10 10 2).1.y - 10) ≤
          (s.x - 10) * (s.x - 10) + (s.y - 10) * (s.y - 10)) ∧
      (find_or_create_space_at (fun a : ℤ => if 4 < a then 5 else 0)
          exMap 10 10 2).2 = exMap) :=
  find_or_create_space_threshold (fun a : ℤ => if 4 < a then 5 else 0) exMap 10 10 2
    (by decide)
    (fun a _ => by
      by_cases h4 : (4 : ℤ) < a
      · simp [h4]
      · simp [h4])

/-! ### C5: arcs contributed by a hallway -/

/-- Membership in the key fold of `build_graph`: a key is either an initial
one or the id of some space of the list. -/
theorem keysFold_mem : ∀ (l : List (Space α)) (ks : List Int) (k : Int),
    (k ∈ l.foldl (fun ks s => if s.id ∈ ks then ks else ks ++ [s.id]) ks ↔
      k ∈ ks ∨ ∃ s ∈ l, s.id = k) := by
  intro l
  induction l with
  | nil => simp
  | cons s l ih =>
    intro ks k
    rw [List.foldl_cons]
    by_cases hmem : s.id ∈ ks
    · rw [if_pos hmem, ih]
      constructor
      · rintro (hk | ⟨t, ht, rfl⟩)
        · exact Or.inl hk
        · exact Or.inr ⟨t, List.mem_cons_of_mem _ ht, rfl⟩
      · rintro (hk | ⟨t, htm, rfl⟩)
        · exact Or.inl hk
        · rcases List.mem_cons.mp htm with rfl | ht
          · exact Or.inl hmem
          · exact Or.inr ⟨t, ht, rfl⟩
    · rw [if_neg hmem, ih]
      constructor
      · rintro (hk | ⟨t, ht, rfl⟩)
        · rcases List.mem_append.mp hk with hk | hk
          · exact Or.inl hk
          · exact Or.inr ⟨s, List.mem_cons_self _ _, (List.mem_singleton.mp hk).symm⟩
        · exact Or.inr ⟨t, List.mem_cons_of_mem _ ht, rfl⟩
      · rintro (hk | ⟨t, htm, rfl⟩)
        · exact Or.inl (List.mem_append.mpr (Or.inl hk))
        · rcases List.mem_cons.mp htm with rfl | ht
          · exact Or.inl (List.mem_append.mpr (Or.inr (List.mem_singleton.mpr rfl)))
          · exact Or.inr ⟨t, ht, rfl⟩

/-- The key fold of `build_graph` preserves distinctness of keys. -/
theorem keysFold_nodup : ∀ (l : List (Space α)) (ks : List Int), ks.Nodup →
    (l.foldl (fun ks s => if s.id ∈ ks then ks else ks ++ [s.id]) ks).Nodup := by
  intro l
  induction l with
  | nil => exact fun ks h => h
  | cons s l ih =>
    intro ks h
    rw [List.foldl_cons]
    by_cases hmem : s.id ∈ ks
    · rw [if_pos hmem]
      exact ih ks h
    · rw [if_neg hmem]
      refine ih _ ?_
      rw [List.nodup_append]
      exact ⟨h, List.nodup_singleton _, by simpa using hmem⟩

/-- The vertex set of the built graph is the set of space ids. -/
theorem build_graph_keys_mem (sqrt : α → α) (m : Map α) (k : Int) :
    k ∈ (build_graph sqrt m).keys ↔ ∃ s ∈ m.spaces, s.id = k := by
  unfold build_graph
  rw [keysFold_mem]
  simp

/-- The key list of the built graph has no duplicates. -/
theorem build_graph_keys_nodup (sqrt : α → α) (m : Map α) :
    (build_graph sqrt m).keys.Nodup := by
  unfold build_graph
  exact keysFold_nodup _ _ List.nodup_nil

/-- Appending to one adjacency list preserves every existing arc. -/
theorem mem_update_append {adj : Int → List (Int × α × Int)} {k j : Int}
    {e : Int × α × Int} (extra : List (Int × α × Int)) (he : e ∈ adj k) :
    e ∈ (Function.update adj j (adj j ++ extra)) k := by
  by_cases hkj : k = j
  · subst hkj
    rw [Function.update_same]
    exact List.mem_append.mpr (Or.inl he)
  · rw [Function.update_noteq hkj]
    exact he

/-- The arc fold of `build_graph` only ever appends: arcs present at any point
survive to the end. -/
theorem foldArcs_mono (sqrt : α → α) (m : Map α) :
    ∀ (hs : List (Hallway α)) (adj : Int → List (Int × α × Int)) (k : Int)
      (e : Int × α × Int), e ∈ adj k →
      e ∈ (hs.foldl (addHallwayArcs sqrt m) adj) k := by
  intro hs
  induction hs with
  | nil => exact fun adj k e he => he
  | cons h2 hs ih =>
    intro adj k e he
    rw [List.foldl_cons]
    refine ih _ k e ?_
    unfold addHallwayArcs
    rcases hf : get_space_by_id m h2.from_space_id with _ | s1
    · exact he
    rcases ht : get_space_by_id m h2.to_space_id with _ | s2
    · exact he
    exact mem_update_append _ (mem_update_append _ he)

/-- Replacing one adjacency list by itself plus `extra` adds exactly the
`extra` matches to the total count over a duplicate-free key list containing
the updated key. -/
theorem sum_countP_update_append (f : Int × α × Int → Bool) :
    ∀ (K : List Int) (adj : Int → List (Int × α × Int)) (j : Int)
      (extra : List (Int × α × Int)), K.Nodup → j ∈ K →
      (K.map (fun k => ((Function.update adj j (adj j ++ extra)) k).countP f)).sum =
        (K.map (fun k => (adj k).countP f)).sum + extra.countP f := by
  intro K
  induction K with
  | nil => simp
  | cons k K ih =>
    intro adj j extra hnd hj
    rcases List.mem_cons.mp hj with rfl | hj'
    · have hK : ∀ k' ∈ K, k' ≠ j := by
        intro k' hk' he
        subst he
        exact (List.nodup_cons.mp hnd).1 hk'
      rw [List.map_cons, List.map_cons, List.sum_cons, List.sum_cons,
        Function.update_same, List.countP_append]
      have hrest : K.map (fun k => ((Function.update adj j (adj j ++ extra)) k).countP f) =
          K.map (fun k => (adj k).countP f) := by
        refine List.map_congr_left ?_
        intro k' hk'
        rw [Function.update_noteq (hK k' hk')]
      rw [hrest]
      omega
    · have hkj : k ≠ j := by
        intro he
        subst he
        exact (List.nodup_cons.mp hnd).1 hj'
      rw [List.map_cons, List.map_cons, List.sum_cons, List.sum_cons,
        Function.update_noteq hkj]
      rw [ih adj j extra (List.nodup_cons.mp hnd).2 hj']
      omega

/-- One step of the arc fold adds two arcs carrying its own hallway id when
both endpoints resolve, and nothing otherwise. -/
theorem addHallwayArcs_countP (sqrt : α → α) (m : Map α) (K : List Int)
    (hK : K.Nodup) (hKall : ∀ s ∈ m.spaces, s.id ∈ K)
    (adj : Int → List (Int × α × Int)) (h2 : Hallway α) (hid : Int) :
    (K.map (fun k =>
        ((addHallwayArcs sqrt m adj h2) k).countP (fun t => decide (t.2.2 = hid)))).sum =
      (K.map (fun k => (adj k).countP (fun t => decide (t.2.2 = hid)))).sum +
        (match get_space_by_id m h2.from_space_id, get_space_by_id m h2.to_space_id with
         | some _, some _ => if h2.id = hid then 2 else 0
         | _, _ => 0) := by
  unfold addHallwayArcs
  rcases hf : get_space_by_id m h2.from_space_id with _ | s1
  · simp
  rcases ht : get_space_by_id m h2.to_space_id with _ | s2
  · simp
  have hs1 : s1.id ∈ K := hKall s1 (List.mem_of_find?_eq_some hf)
  have hs2 : s2.id ∈ K := hKall s2 (List.mem_of_find?_eq_some ht)
  dsimp only
  rw [sum_countP_update_append _ K _ _ _ hK hs2,
    sum_countP_update_append _ K _ _ _ hK hs1]
  by_cases hidq : h2.id = hid
  · simp [List.countP_cons, hidq]
  · simp [List.countP_cons, hidq]

/-- Hallways with other ids contribute no arcs carrying `hid`. -/
theorem foldArcs_countP_other (sqrt : α → α) (m : Map α) (K : List Int)
    (hK : K.Nodup) (hKall : ∀ s ∈ m.spaces, s.id ∈ K) (hid : Int) :
    ∀ (hs : List (Hallway α)) (adj : Int → List (Int × α × Int)),
      (∀ h2 ∈ hs, h2.id ≠ hid) →
      (K.map (fun k =>
          ((hs.foldl (addHallwayArcs sqrt m) adj) k).countP
            (fun t => decide (t.2.2 = hid)))).sum =
        (K.map (fun k => (adj k).countP (fun t => decide (t.2.2 = hid)))).sum := by
  intro hs
  induction hs with
  | nil => intro adj _; rfl
  | cons h2 hs ih =>
    intro adj hne
    rw [List.foldl_cons]
    rw [ih _ (fun h3 h3m => hne h3 (List.mem_cons_of_mem _ h3m))]
    rw [addHallwayArcs_countP sqrt m K hK hKall adj h2 hid]
    have : (match get_space_by_id m h2.from_space_id, get_space_by_id m h2.to_space_id with
         | some _, some _ => if h2.id = hid then 2 else 0
         | _, _ => 0) = 0 := by
      rcases get_space_by_id m h2.from_space_id with _ | s1
      · rfl
      rcases get_space_by_id m h2.to_space_id with _ | s2
      · rfl
      simp [hne h2 (List.mem_cons_self _ _)]
    rw [this]
    omega

/-- Arcs only ever live at space-id keys: off the key list the adjacency map
of the built graph stays empty. -/
theorem foldArcs_off_keys (sqrt : α → α) (m : Map α) :
    ∀ (hs : List (Hallway α)) (adj : Int → List (Int × α × Int)) (k : Int),
      (∀ s ∈ m.spaces, s.id ≠ k) → adj k = [] →
      (hs.foldl (addHallwayArcs sqrt m) adj) k = [] := by
  intro hs
  induction hs with
  | nil => exact fun adj k _ h0 => h0
  | cons h2 hs ih =>
    intro adj k hks h0
    rw [List.foldl_cons]
    refine ih _ k hks ?_
    unfold addHallwayArcs
    rcases hf : get_space_by_id m h2.from_space_id with _ | s1
    · exact h0
    rcases ht : get_space_by_id m h2.to_space_id with _ | s2
    · exact h0
    dsimp only
    rw [Function.update_noteq (Ne.symm (hks s2 (List.mem_of_find?_eq_some ht))),
      Function.update_noteq (Ne.symm (hks s1 (List.mem_of_find?_eq_some hf)))]
    exact h0

/-- C5: a hallway of a map with duplicate-free hallway ids contributes, when
both of its endpoint ids resolve to live spaces, exactly two arcs to the built
graph — `(to, w, id)` in the from-space's adjacency list and `(from, w, id)`
in the to-space's — with the one weight `w = sqrt(dx² + dy²)` computed from
the two resolved spaces' current coordinates; when either endpoint fails to
resolve it contributes no arc at all (and no arc lives off the key list). -/
theorem build_graph_hallway_arcs (sqrt : α → α) (m : Map α) (h : Hallway α)
    (hmem : h ∈ m.hallways) (hnodup : (m.hallways.map Hallway.id).Nodup) :
    (∀ k, k ∉ (build_graph sqrt m).keys → (build_graph sqrt m).adj k = []) ∧
    (∀ s1 s2, get_space_by_id m h.from_space_id = some s1 →
      get_space_by_id m h.to_space_id = some s2 →
      ((s2.id, sqrt ((s1.x - s2.x) * (s1.x - s2.x) + (s1.y - s2.y) * (s1.y - s2.y)),
          h.id) ∈ (build_graph sqrt m).adj s1.id ∧
       (s1.id, sqrt ((s1.x - s2.x) * (s1.x - s2.x) + (s1.y - s2.y) * (s1.y - s2.y)),
          h.id) ∈ (build_graph sqrt m).adj s2.id ∧
       ((build_graph sqrt m).keys.map
          (fun k => ((build_graph sqrt m).adj k).countP
            (fun t => decide (t.2.2 = h.id)))).sum = 2)) ∧
    ((get_space_by_id m h.from_space_id = none ∨
        get_space_by_id m h.to_space_id = none) →
      ((build_graph sqrt m).keys.map
        (fun k => ((build_graph sqrt m).adj k).countP
          (fun t => decide (t.2.2 = h.id)))).sum = 0) := by
  obtain ⟨pre, post, hsplit⟩ := List.append_of_mem hmem
  have hK : (build_graph sqrt m).keys.Nodup := build_graph_keys_nodup sqrt m
  have hKall : ∀ s ∈ m.spaces, s.id ∈ (build_graph sqrt m).keys := by
    intro s hs
    exact (build_graph_keys_mem sqrt m s.id).mpr ⟨s, hs, rfl⟩
  have hnd2 := hnodup
  rw [hsplit, List.map_append, List.map_cons] at hnd2
  rw [List.nodup_append] at hnd2
  have hpre : ∀ h2 ∈ pre, h2.id ≠ h.id := by
    intro h2 h2m he
    exact hnd2.2.2 (List.mem_map_of_mem Hallway.id h2m)
      (by rw [he]; exact List.mem_cons_self _ _)
  have hpost : ∀ h2 ∈ post, h2.id ≠ h.id := by
    intro h2 h2m he
    exact (List.nodup_cons.mp hnd2.2.1).1 (by rw [← he]; exact List.mem_map_of_mem _ h2m)
  have hadj : (build_graph sqrt m).adj =
      post.foldl (addHallwayArcs sqrt m)
        (addHallwayArcs sqrt m (pre.foldl (addHallwayArcs sqrt m) (fun _ => [])) h) := by
    show m.hallways.foldl (addHallwayArcs sqrt m) (fun _ => []) = _
    rw [hsplit, List.foldl_append, List.foldl_cons]
  refine ⟨?_, ?_, ?_⟩
  · intro k hk
    have hne : ∀ s ∈ m.spaces, s.id ≠ k := by
      intro s hs he
      exact hk ((build_graph_keys_mem sqrt m k).mpr ⟨s, hs, he⟩)
    exact foldArcs_off_keys sqrt m m.hallways (fun _ => []) k hne rfl
  · intro s1 s2 hf ht
    set adjPre := pre.foldl (addHallwayArcs sqrt m) (fun _ => []) with hadjPre
    have hstep : addHallwayArcs sqrt m adjPre h =
        Function.update
          (Function.update adjPre s1.id
            (adjPre s1.id ++
              [(s2.id, sqrt ((s1.x - s2.x) * (s1.x - s2.x) + (s1.y - s2.y) * (s1.y - s2.y)),
                h.id)]))
          s2.id
          ((Function.update adjPre s1.id
            (adjPre s1.id ++
              [(s2.id, sqrt ((s1.x - s2.x) * (s1.x - s2.x) + (s1.y - s2.y) * (s1.y - s2.y)),
                h.id)])) s2.id ++
            [(s1.id, sqrt ((s1.x - s2.x) * (s1.x - s2.x) + (s1.y - s2.y) * (s1.y - s2.y)),
              h.id)]) := by
      unfold addHallwayArcs
      rw [hf, ht]
    refine ⟨?_, ?_, ?_⟩
    · rw [hadj]
      refine foldArcs_mono sqrt m post _ _ _ ?_
      rw [hstep]
      refine mem_update_append _ ?_
      rw [Function.update_same]
      exact List.mem_append.mpr (Or.inr (List.mem_singleton.mpr rfl))
    · rw [hadj]
      refine foldArcs_mono sqrt m post _ _ _ ?_
      rw [hstep, Function.update_same]
      exact List.mem_append.mpr (Or.inr (List.mem_singleton.mpr rfl))
    · rw [hadj]
      rw [foldArcs_countP_other sqrt m _ hK hKall h.id post _ hpost]
      rw [addHallwayArcs_countP sqrt m _ hK hKall adjPre h h.id]
      rw [foldArcs_countP_other sqrt m _ hK hKall h.id pre _ hpre]
      rw [hf, ht]
      simp
  · intro hnone
    rw [hadj]
    rw [foldArcs_countP_other sqrt m _ hK hKall h.id post _ hpost]
    rw [addHallwayArcs_countP sqrt m _ hK hKall _ h h.id]
    rw [foldArcs_countP_other sqrt m _ hK hKall h.id pre _ hpre]
    have hmatch : (match get_space_by_id m h.from_space_id,
          get_space_by_id m h.to_space_id with
        | some _, some _ => if h.id = h.id then 2 else 0
        | _, _ => 0) = 0 := by
      rcases hnone with hnone | hnone
      · rw [hnone]
      · rw [hnone]
        rcases get_space_by_id m h.from_space_id with _ | s1
        · rfl
        · rfl
    rw [hmatch]
    simp

/-- Witness for C5 at the fixture's first hallway (between spaces `1` and
`2`): both arcs present with the squared-distance weight `1`, total count `2`,
and the dangling-hallway side holds vacuously. -/
theorem build_graph_hallway_arcs_witness :
    (∀ k, k ∉ (build_graph (fun a : ℤ => a) exMap).keys →
      (build_graph (fun a : ℤ => a) exMap).adj k = []) ∧
    (∀ s1 s2, get_space_by_id exMap (exHallway 1 1 2).from_space_id = some s1 →
      get_space_by_id exMap (exHallway 1 1 2).to_space_id = some s2 →
      ((s2.id, (fun a : ℤ => a)
          ((s1.x - s2.x) * (s1.x - s2.x) + (s1.y - s2.y) * (s1.y - s2.y)),
          (exHallway 1 1 2).id) ∈ (build_graph (fun a : ℤ => a) exMap).adj s1.id ∧
       (s1.id, (fun a : ℤ => a)
          ((s1.x - s2.x) * (s1.x - s2.x) + (s1.y - s2.y) * (s1.y - s2.y)),
          (exHallway 1 1 2).id) ∈ (build_graph (fun a : ℤ => a) exMap).adj s2.id ∧
       ((build_graph (fun a : ℤ => a) exMap).keys.map
          (fun k => ((build_graph (fun a : ℤ => a) exMap).adj k).countP
            (fun t => decide (t.2.2 = (exHallway 1 1 2).id)))).sum = 2)) ∧
    ((get_space_by_id exMap (exHallway 1 1 2).from_space_id = none ∨
        get_space_by_id exMap (exHallway 1 1 2).to_space_id = none) →
      ((build_graph (fun a : ℤ => a) exMap).keys.map
        (fun k => ((build_graph (fun a : ℤ => a) exMap).adj k).countP
          (fun t => decide (t.2.2 = (exHallway 1 1 2).id)))).sum = 0) :=
  build_graph_hallway_arcs (fun a : ℤ => a) exMap (exHallway 1 1 2)
    (by decide) (by decide)

/-! ### C2: congestion is monotone in the right end of the window -/

/-- The trip counter of the per-transition body is additive in the
accumulator: the step's contribution does not depend on the accumulator. -/
theorem congestionPair_trips (sqrt : α → α) (m : Map α) (fsid : Option Int)
    (fdir : String) (acc : List (Int × Nat) × Nat) (sf st : Option Int) :
    (congestionPair sqrt m fsid fdir acc sf st).2 =
      acc.2 + (congestionPair sqrt m fsid fdir ([], 0) sf st).2 := by
  unfold congestionPair
  rcases sf with _ | a
  · simp
  rcases st with _ | b
  · simp
  dsimp only
  by_cases hab : a = b
  · simp [hab]
  rw [if_neg hab, if_neg hab]
  generalize (match fsid with
    | none => false
    | some fid =>
      if fdir = "arriving" then decide (b ≠ fid)
      else if fdir = "leaving" then decide (a ≠ fid)
      else decide (a ≠ fid ∧ b ≠ fid)) = sk
  cases sk
  · simp only [Bool.false_eq_true, if_false]
    rcases dijkstra_shortest_path sqrt m a b with _ | ⟨sp, hp⟩
    · simp
    · by_cases hhp : hp = []
      · simp [hhp]
      · simp [hhp]
  · simp

/-- Trip-counter additivity for the fold over a transition window. -/
theorem foldPairs_trips (sqrt : α → α) (m : Map α) (fsid : Option Int)
    (fdir : String) (g1 g2 : Int → Option Int) :
    ∀ (ps : List Int) (acc : List (Int × Nat) × Nat),
      (ps.foldl (fun acc p => congestionPair sqrt m fsid fdir acc (g1 p) (g2 p)) acc).2 =
        acc.2 +
          (ps.foldl (fun acc p => congestionPair sqrt m fsid fdir acc (g1 p) (g2 p))
            ([], 0)).2 := by
  intro ps
  induction ps with
  | nil => simp
  | cons p ps ih =>
    intro acc
    rw [List.foldl_cons, List.foldl_cons]
    rw [ih (congestionPair sqrt m fsid fdir acc (g1 p) (g2 p))]
    rw [ih (congestionPair sqrt m fsid fdir ([], 0) (g1 p) (g2 p))]
    rw [congestionPair_trips sqrt m fsid fdir acc (g1 p) (g2 p)]
    omega

/-- Trip-counter additivity for the per-student step. -/
theorem congestionStudent_trips (sqrt : α → α) (m : Map α)
    (from_index to_index : Int) (fsid : Option Int) (fdir : String)
    (acc : List (Int × Nat) × Nat) (stu : Student) :
    (congestionStudent sqrt m from_index to_index fsid fdir acc stu).2 =
      acc.2 + (congestionStudent sqrt m from_index to_index fsid fdir ([], 0) stu).2 := by
  unfold congestionStudent
  by_cases hel : (stu.space_ids.length : Int) ≤ to_index
  · simp [hel]
  · rw [if_neg hel, if_neg hel]
    exact foldPairs_trips sqrt m fsid fdir _ _ (pyRange from_index to_index) acc

/-- Trip-counter additivity for the fold over the student list. -/
theorem foldStudents_trips (sqrt : α → α) (m : Map α)
    (from_index to_index : Int) (fsid : Option Int) (fdir : String) :
    ∀ (stus : List Student) (acc : List (Int × Nat) × Nat),
      (stus.foldl (congestionStudent sqrt m from_index to_index fsid fdir) acc).2 =
        acc.2 +
          (stus.foldl (congestionStudent sqrt m from_index to_index fsid fdir)
            ([], 0)).2 := by
  intro stus
  induction stus with
  | nil => simp
  | cons stu stus ih =>
    intro acc
    rw [List.foldl_cons, List.foldl_cons]
    rw [ih (congestionStudent sqrt m from_index to_index fsid fdir acc stu)]
    rw [ih (congestionStudent sqrt m from_index to_index fsid fdir ([], 0) stu)]
    rw [congestionStudent_trips sqrt m from_index to_index fsid fdir acc stu]
    omega

/-- Python `range` splits at an intermediate endpoint. -/
theorem pyRange_append (a b c : Int) (hab : a ≤ b) (hbc : b ≤ c) :
    pyRange a c = pyRange a b ++ pyRange b c := by
  unfold pyRange
  have hn : (c - a).toNat = (b - a).toNat + (c - b).toNat := by omega
  rw [hn, List.range_add, List.map_append, List.map_map]
  congr 1
  refine List.map_congr_left ?_
  intro i _
  simp only [Function.comp_apply]
  omega

/-- A fixed eligible student's trip contribution does not decrease when the
window is widened on the right. -/
theorem congestionStudent_base_mono (sqrt : α → α) (m : Map α)
    (from_index t1 t2 : Int) (fsid : Option Int) (fdir : String) (stu : Student)
    (h12 : t1 ≤ t2) (hstu : t2 < (stu.space_ids.length : Int)) :
    (congestionStudent sqrt m from_index t1 fsid fdir ([], 0) stu).2 ≤
      (congestionStudent sqrt m from_index t2 fsid fdir ([], 0) stu).2 := by
  unfold congestionStudent
  rw [if_neg (not_le.mpr (lt_of_le_of_lt h12 hstu)), if_neg (not_le.mpr hstu)]
  by_cases hf1 : t1 ≤ from_index
  · have hempty : pyRange from_index t1 = [] := by
      unfold pyRange
      have : (t1 - from_index).toNat = 0 := by omega
      rw [this]
      rfl
    rw [hempty]
    simp
  · rw [pyRange_append from_index t1 t2 (le_of_not_le hf1) h12, List.foldl_append]
    rw [foldPairs_trips sqrt m fsid fdir _ _ (pyRange t1 t2)]
    exact Nat.le_add_right _ _

/-- C2: with a loaded schedule (every student's `space_ids` aligned with
`period_names`, which is what the schedule loader produces), widening the
period window on the right never decreases `totalTrips`. -/
theorem compute_congestion_monotone (sqrt : α → α) (m : Map α)
    (from_index t1 t2 : Int) (fsid : Option Int) (fdir : String)
    (hlen : ∀ stu ∈ m.student_schedules,
      stu.space_ids.length = m.period_names.length)
    (h12 : t1 < t2) (ht2 : t2 < (m.period_names.length : Int)) :
    (compute_congestion sqrt m from_index t1 fsid fdir).2 ≤
      (compute_congestion sqrt m from_index t2 fsid fdir).2 := by
  by_cases hg : m.period_names = [] ∨ m.student_schedules = []
  · unfold compute_congestion
    simp [hg]
  by_cases hf : from_index < 0 ∨ t1 ≤ from_index
  · have hzero : compute_congestion sqrt m from_index t1 fsid fdir = ([], 0) := by
      unfold compute_congestion
      rw [if_neg hg, if_pos hf]
    rw [hzero]
    exact Nat.zero_le _
  have hf2 : ¬ (from_index < 0 ∨ t2 ≤ from_index) := by
    push_neg at hf ⊢
    exact ⟨hf.1, lt_trans hf.2 h12⟩
  have hg31 : ¬ (m.period_names.length : Int) ≤ t1 := not_le.mpr (lt_trans h12 ht2)
  have hg32 : ¬ (m.period_names.length : Int) ≤ t2 := not_le.mpr ht2
  have heq1 : compute_congestion sqrt m from_index t1 fsid fdir =
      m.student_schedules.foldl
        (congestionStudent sqrt m from_index t1 fsid fdir) ([], 0) := by
    unfold compute_congestion
    rw [if_neg hg, if_neg hf, if_neg hg31]
  have heq2 : compute_congestion sqrt m from_index t2 fsid fdir =
      m.student_schedules.foldl
        (congestionStudent sqrt m from_index t2 fsid fdir) ([], 0) := by
    unfold compute_congestion
    rw [if_neg hg, if_neg hf2, if_neg hg32]
  rw [heq1, heq2]
  have hall : ∀ stu ∈ m.student_schedules, t2 < (stu.space_ids.length : Int) := by
    intro stu hstu
    rw [hlen stu hstu]
    exact ht2
  have hmain : ∀ stus : List Student,
      (∀ stu ∈ stus, t2 < (stu.space_ids.length : Int)) →
      (stus.foldl (congestionStudent sqrt m from_index t1 fsid fdir) ([], 0)).2 ≤
        (stus.foldl (congestionStudent sqrt m from_index t2 fsid fdir) ([], 0)).2 := by
    intro stus
    induction stus with
    | nil => simp
    | cons stu stus ih =>
      intro hall2
      rw [List.foldl_cons, List.foldl_cons]
      rw [foldStudents_trips sqrt m from_index t1 fsid fdir stus
        (congestionStudent sqrt m from_index t1 fsid fdir ([], 0) stu)]
      rw [foldStudents_trips sqrt m from_index t2 fsid fdir stus
        (congestionStudent sqrt m from_index t2 fsid fdir ([], 0) stu)]
      have h1 := congestionStudent_base_mono sqrt m from_index t1 t2 fsid fdir stu
        (le_of_lt h12) (hall2 stu (List.mem_cons_self _ _))
      have h2 := ih (fun s hs => hall2 s (List.mem_cons_of_mem _ hs))
      omega
  exact hmain m.student_schedules hall

/-- Witness for C2 on the schedule fixture: one transition window inside a
wider one. -/
theorem compute_congestion_monotone_witness :
    (compute_congestion (fun a : ℤ => a) exMapSched 0 1 none "any").2 ≤
      (compute_congestion (fun a : ℤ => a) exMapSched 0 2 none "any").2 :=
  compute_congestion_monotone (fun a : ℤ => a) exMapSched 0 1 2 none "any"
    (by decide) (by decide) (by decide)

/-! ### C10: the engine on a same-vertex query -/

/-- C10: called directly with `start_id = end_id = s` for a vertex `s` of the
built graph, `dijkstra_shortest_path` pops the initial entry, hits the
early-exit immediately, and returns the single-vertex path `([s], [])`, not
the unreachable result. -/
theorem dijkstra_same_vertex (sqrt : α → α) (m : Map α) (s : Int)
    (hs : s ∈ (build_graph sqrt m).keys) :
    dijkstra_shortest_path sqrt m s s = some ([s], []) := by
  unfold dijkstra_shortest_path
  dsimp only
  rw [if_neg (by simp [hs])]
  have hloop : dloop (build_graph sqrt m) s (totalArcs (build_graph sqrt m) + 1)
      { dist := Function.update (fun _ => (⊤ : WithTop α)) s ((0 : α) : WithTop α)
        prev := fun _ => none
        prev_edge := fun _ => none
        heap := [((0 : α), s)] } =
      { dist := Function.update (fun _ => (⊤ : WithTop α)) s ((0 : α) : WithTop α)
        prev := fun _ => none
        prev_edge := fun _ => none
        heap := [] } := by
    rw [dloop]
    simp only [popMin, heapMin, List.erase_cons_head]
    rw [if_neg (by simp [Function.update_same])]
    simp
  rw [hloop]
  rw [if_neg (by simp [Function.update_same])]
  simp only [followPrev, List.reverse_cons, List.reverse_nil, List.nil_append,
    List.drop_succ_cons, List.drop_nil, List.filterMap_nil]

/-- Witness for C10 at vertex `1` of the fixture graph. -/
theorem dijkstra_same_vertex_witness :
    dijkstra_shortest_path (fun a : ℤ => a) exMap 1 1 = some ([1], []) :=
  dijkstra_same_vertex (fun a : ℤ => a) exMap 1 (by decide)

/-! ### C1: Dijkstra soundness and optimality

The development follows the textbook invariant proof, adapted to the lazy
heap with stale-entry skipping of the source: a ghost list `L` collects the
settled vertices, `DInv` is preserved by every iteration, the potential
`dPhi` strictly decreases (which also discharges the loop fuel), and at the
exit the predecessor chain reconstructs a walk realizing `dist[end]`, which
the settled-optimality invariant bounds below every walk. -/

/-- The heap minimum is an element of the heap. -/
theorem heapMin_mem : ∀ (l : List (α × Int)) (e : α × Int),
    heapMin l = some e → e ∈ l := by
  intro l
  induction l with
  | nil =>
    intro e h
    cases h
  | cons a rest ih =>
    intro e h
    rw [heapMin] at h
    rcases hrec : heapMin rest with _ | mr <;> rw [hrec] at h <;> dsimp only at h
    · cases h
      exact List.mem_cons_self _ _
    · injection h with h
      split_ifs at h
      · exact h ▸ List.mem_cons_self _ _
      · exact h ▸ List.mem_cons_of_mem _ (ih mr hrec)

/-- `heapMin` returns `none` only on the empty heap. -/
theorem heapMin_eq_none : ∀ l : List (α × Int), heapMin l = none → l = [] := by
  intro l
  cases l with
  | nil => intro _; rfl
  | cons a rest =>
    intro h
    rw [heapMin] at h
    rcases hrec : heapMin rest with _ | mr <;> rw [hrec] at h <;> cases h

/-- The key of the heap minimum is below every key in the heap. -/
theorem heapMin_key_le : ∀ (l : List (α × Int)) (e : α × Int),
    heapMin l = some e → ∀ e2 ∈ l, e.1 ≤ e2.1 := by
  intro l
  induction l with
  | nil =>
    intro e h
    cases h
  | cons a rest ih =>
    intro e h e2 he2
    rw [heapMin] at h
    rcases hrec : heapMin rest with _ | mr <;> rw [hrec] at h <;> dsimp only at h
    · cases h
      have : rest = [] := heapMin_eq_none rest hrec
      subst this
      rcases List.mem_cons.mp he2 with rfl | he2
      · exact le_refl _
      · cases he2
    · injection h with h
      rcases List.mem_cons.mp he2 with rfl | he2
      · split_ifs at h with hc
        · exact h ▸ le_refl _
        · push_neg at hc
          exact h ▸ hc.1
      · have hmr := ih mr hrec e2 he2
        split_ifs at h with hc
        · rcases hc with hc | hc
          · exact h ▸ le_trans (le_of_lt hc) hmr
          · exact h ▸ (hc.1 ▸ hmr)
        · exact h ▸ hmr

/-- `popMin` pops an element with minimal key and erases one copy of it. -/
theorem popMin_spec (l : List (α × Int)) (e : α × Int) (rest : List (α × Int))
    (h : popMin l = some (e, rest)) :
    e ∈ l ∧ (∀ e2 ∈ l, e.1 ≤ e2.1) ∧ rest = l.erase e := by
  unfold popMin at h
  rcases hmin : heapMin l with _ | e0 <;> rw [hmin] at h
  · cases h
  · rw [Option.some.injEq, Prod.mk.injEq] at h
    obtain ⟨he, hrest⟩ := h
    refine ⟨?_, ?_, ?_⟩
    · rw [← he]
      exact heapMin_mem l e0 hmin
    · rw [← he]
      exact heapMin_key_le l e0 hmin
    · rw [← hrest, ← he]

/-- `popMin` fails only on the empty heap. -/
theorem popMin_eq_none (l : List (α × Int)) (h : popMin l = none) : l = [] := by
  unfold popMin at h
  rcases hmin : heapMin l with _ | e0 <;> rw [hmin] at h
  · exact heapMin_eq_none l hmin
  · cases h

/-- The end vertex of a walk is on the walk. -/
theorem walk_end_mem {g : Graph α} {a b : Int} {vs hs : List Int} {ω : α}
    (h : Walk g a b vs hs ω) : b ∈ vs := by
  induction h with
  | nil _ => exact List.mem_cons_self _ _
  | snoc _ _ _ => exact List.mem_append.mpr (Or.inr (List.mem_singleton.mpr rfl))

/-- Membership after an append-update comes from the old list or the suffix. -/
theorem mem_update_append_elim {adj : Int → List (Int × α × Int)} {k j : Int}
    {e : Int × α × Int} {extra : List (Int × α × Int)}
    (h : e ∈ (Function.update adj j (adj j ++ extra)) k) : e ∈ adj k ∨ e ∈ extra := by
  by_cases hkj : k = j
  · subst hkj
    rw [Function.update_same] at h
    exact List.mem_append.mp h
  · rw [Function.update_noteq hkj] at h
    exact Or.inl h

/-- Any arc present after one arc-fold step is an old arc or one of the two
just-added ones. -/
theorem addHallwayArcs_mem_elim (sqrt : α → α) (m : Map α)
    (adj : Int → List (Int × α × Int)) (h2 : Hallway α) (u : Int)
    (e : Int × α × Int) (h : e ∈ (addHallwayArcs sqrt m adj h2) u) :
    e ∈ adj u ∨
      ∃ s1 s2, get_space_by_id m h2.from_space_id = some s1 ∧
        get_space_by_id m h2.to_space_id = some s2 ∧
        (e = (s2.id, sqrt ((s1.x - s2.x) * (s1.x - s2.x) + (s1.y - s2.y) * (s1.y - s2.y)),
              h2.id) ∨
         e = (s1.id, sqrt ((s1.x - s2.x) * (s1.x - s2.x) + (s1.y - s2.y) * (s1.y - s2.y)),
              h2.id)) := by
  unfold addHallwayArcs at h
  rcases hf : get_space_by_id m h2.from_space_id with _ | s1 <;> rw [hf] at h
  · exact Or.inl h
  rcases ht : get_space_by_id m h2.to_space_id with _ | s2 <;> rw [ht] at h
  · exact Or.inl h
  dsimp only at h
  rcases mem_update_append_elim h with h | h
  · rcases mem_update_append_elim h with h | h
    · exact Or.inl h
    · exact Or.inr ⟨s1, s2, rfl, rfl, Or.inl (List.mem_singleton.mp h)⟩
  · exact Or.inr ⟨s1, s2, rfl, rfl, Or.inr (List.mem_singleton.mp h)⟩

/-- The built graph has nonnegative weights whenever the square-root model is
nonnegative on nonnegative inputs (as `math.sqrt` is). -/
theorem build_graph_nonneg (sqrt : α → α) (m : Map α)
    (hsq0 : ∀ a : α, 0 ≤ a → 0 ≤ sqrt a) : NonnegWeights (build_graph sqrt m) := by
  have main : ∀ (hs : List (Hallway α)) (adj : Int → List (Int × α × Int)),
      (∀ u v w hid, (v, w, hid) ∈ adj u → 0 ≤ w) →
      ∀ u v w hid, (v, w, hid) ∈ (hs.foldl (addHallwayArcs sqrt m) adj) u → 0 ≤ w := by
    intro hs
    induction hs with
    | nil => exact fun adj hadj => hadj
    | cons h2 hs ih =>
      intro adj hadj
      rw [List.foldl_cons]
      refine ih _ ?_
      intro u v w hid hmem
      rcases addHallwayArcs_mem_elim sqrt m adj h2 u _ hmem with hmem | ⟨s1, s2, _, _, he⟩
      · exact hadj _ _ _ _ hmem
      · rcases he with he | he <;> injection he with h1 hrest <;> injection hrest with h2' h3
        · exact h2' ▸ hsq0 _ (add_nonneg (mul_self_nonneg _) (mul_self_nonneg _))
        · exact h2' ▸ hsq0 _ (add_nonneg (mul_self_nonneg _) (mul_self_nonneg _))
  intro u v w hid hmem
  exact main m.hallways (fun _ => []) (by intro u2 v2 w2 hid2 h0; cases h0) u v w hid hmem

/-- The built graph is closed: every arc points at a space id. -/
theorem build_graph_closed (sqrt : α → α) (m : Map α) :
    ClosedGraph (build_graph sqrt m) := by
  have main : ∀ (hs : List (Hallway α)) (adj : Int → List (Int × α × Int)),
      (∀ u v w hid, (v, w, hid) ∈ adj u → v ∈ (build_graph sqrt m).keys) →
      ∀ u v w hid, (v, w, hid) ∈ (hs.foldl (addHallwayArcs sqrt m) adj) u →
        v ∈ (build_graph sqrt m).keys := by
    intro hs
    induction hs with
    | nil => exact fun adj hadj => hadj
    | cons h2 hs ih =>
      intro adj hadj
      rw [List.foldl_cons]
      refine ih _ ?_
      intro u v w hid hmem
      rcases addHallwayArcs_mem_elim sqrt m adj h2 u _ hmem with hmem | ⟨s1, s2, hf, ht, he⟩
      · exact hadj _ _ _ _ hmem
      · rcases he with he | he <;> injection he with h1 hrest
        · exact h1 ▸ (build_graph_keys_mem sqrt m _).mpr
            ⟨s2, List.mem_of_find?_eq_some ht, rfl⟩
        · exact h1 ▸ (build_graph_keys_mem sqrt m _).mpr
            ⟨s1, List.mem_of_find?_eq_some hf, rfl⟩
  intro u v w hid hmem
  exact main m.hallways (fun _ => []) (by intro u2 v2 w2 hid2 h0; cases h0) u v w hid hmem

/-- The cut argument: under the loop invariant, along any walk either the end
vertex's distance is already below the walk's weight, or some unsettled vertex
has a heap entry whose key is. -/
theorem dInv_cut (g : Graph α) (start : Int) (L : List Int) (st : DState α)
    (hw : NonnegWeights g) (hinv : DInv g start L st) :
    ∀ v vs hs ω, Walk g start v vs hs ω →
      st.dist v ≤ (ω : WithTop α) ∨
      ∃ y d2, y ∉ L ∧ (d2, y) ∈ st.heap ∧ st.dist y = (d2 : WithTop α) ∧ d2 ≤ ω := by
  intro v vs hs ω hwalk
  induction hwalk with
  | nil ha =>
    left
    rw [hinv.hstart.1]
    exact le_of_eq (WithTop.coe_zero).symm
  | @snoc b c vs2 hs2 w2 ω2 hid2 hwk harc ih =>
    have hw2 : 0 ≤ w2 := hw b c w2 hid2 harc
    rcases ih with hdb | ⟨y, d2, hyL, hin, heq, hle⟩
    · by_cases hbL : b ∈ L
      · left
        refine le_trans (hinv.hrelaxed b hbL c w2 hid2 harc) ?_
        rw [WithTop.coe_add]
        exact add_le_add_right hdb _
      · right
        have hbne : st.dist b ≠ ⊤ := ne_top_of_le_ne_top (WithTop.coe_ne_top) hdb
        obtain ⟨d2, hin, heq⟩ := hinv.hfrontier b hbL hbne
        refine ⟨b, d2, hbL, hin, heq, ?_⟩
        have : (d2 : WithTop α) ≤ (ω2 : WithTop α) := heq ▸ hdb
        exact le_trans (WithTop.coe_le_coe.mp this) (le_add_of_nonneg_right hw2)
    · exact Or.inr ⟨y, d2, hyL, hin, heq, le_trans hle (le_add_of_nonneg_right hw2)⟩

/-- At a nonstale pop the popped key equals the vertex's distance, which is
optimal over all walks from the start. -/
theorem settle_opt (g : Graph α) (start : Int) (L : List Int) (st : DState α)
    (hw : NonnegWeights g) (hinv : DInv g start L st)
    (d : α) (u : Int) (rest : List (α × Int))
    (hpop : popMin st.heap = some ((d, u), rest))
    (hnonstale : ¬ ((d : WithTop α) > st.dist u)) :
    st.dist u = (d : WithTop α) ∧
    ∀ vs hs ω, Walk g start u vs hs ω → st.dist u ≤ (ω : WithTop α) := by
  obtain ⟨hmem, hmin, -⟩ := popMin_spec _ _ _ hpop
  have hud : st.dist u = (d : WithTop α) :=
    le_antisymm (hinv.hheap d u hmem).2.2 (not_lt.mp hnonstale)
  refine ⟨hud, ?_⟩
  intro vs hs ω hwalk
  rcases dInv_cut g start L st hw hinv u vs hs ω hwalk with h | ⟨y, d2, _, hin, _, hle⟩
  · exact h
  · rw [hud]
    exact WithTop.coe_le_coe.mpr (le_trans (hmin (d2, y) hin) hle)

/-- The relaxation pass never increases any distance. -/
theorem relaxArc_fold_dist_le (u : Int) (d : α) :
    ∀ (arcs : List (Int × α × Int)) (stp : DState α) (x : Int),
      (arcs.foldl (relaxArc u d) stp).dist x ≤ stp.dist x := by
  intro arcs
  induction arcs with
  | nil => exact fun stp x => le_refl _
  | cons arc arcs ih =>
    intro stp x
    rw [List.foldl_cons]
    refine le_trans (ih _ x) ?_
    unfold relaxArc
    dsimp only
    by_cases hg : ((d + arc.2.1 : α) : WithTop α) < stp.dist arc.1
    · rw [if_pos hg]
      dsimp only
      by_cases hxv : x = arc.1
      · subst hxv
        rw [Function.update_same]
        exact le_of_lt hg
      · rw [Function.update_noteq hxv]
    · rw [if_neg hg]

/-- The relaxation pass pushes at most one entry per arc. -/
theorem relaxArc_fold_heap_len (u : Int) (d : α) :
    ∀ (arcs : List (Int × α × Int)) (stp : DState α),
      (arcs.foldl (relaxArc u d) stp).heap.length ≤ stp.heap.length + arcs.length := by
  intro arcs
  induction arcs with
  | nil => intro stp; simp
  | cons arc arcs ih =>
    intro stp
    rw [List.foldl_cons]
    refine le_trans (ih _) ?_
    unfold relaxArc
    dsimp only
    by_cases hg : ((d + arc.2.1 : α) : WithTop α) < stp.dist arc.1
    · rw [if_pos hg]
      simp only [List.length_cons]
      omega
    · rw [if_neg hg]
      simp only [List.length_cons]
      omega

/-- When no relaxation guard can fire, the pass leaves the state unchanged. -/
theorem relaxArc_fold_id (u : Int) (d : α) :
    ∀ (arcs : List (Int × α × Int)) (stp : DState α),
      (∀ e ∈ arcs, ¬ (((d + e.2.1 : α) : WithTop α) < stp.dist e.1)) →
      arcs.foldl (relaxArc u d) stp = stp := by
  intro arcs
  induction arcs with
  | nil => exact fun stp _ => rfl
  | cons arc arcs ih =>
    intro stp hng
    rw [List.foldl_cons]
    have hstep : relaxArc u d stp arc = stp := by
      unfold relaxArc
      dsimp only
      rw [if_neg (hng arc (List.mem_cons_self _ _))]
    rw [hstep]
    exact ih stp (fun e he => hng e (List.mem_cons_of_mem _ he))

/-- One relaxation pass preserves the intermediate invariant and bounds the
new distance of each processed arc target. -/
theorem relaxArc_fold_rinv (g : Graph α) (start : Int) (L2 : List Int)
    (st0 : DState α) (u : Int) (d : α)
    (hw : NonnegWeights g) (hc : ClosedGraph g) (hd0 : 0 ≤ d) (huL2 : u ∈ L2)
    (hLopt : ∀ x ∈ L2, ∀ vs hs ω, Walk g start x vs hs ω →
      st0.dist x ≤ (ω : WithTop α))
    (hdu : st0.dist u = (d : WithTop α)) :
    ∀ (arcs : List (Int × α × Int)), (∀ e ∈ arcs, e ∈ g.adj u) →
      ∀ stp, RInv g start L2 st0 u d stp →
        RInv g start L2 st0 u d (arcs.foldl (relaxArc u d) stp) ∧
        (∀ e ∈ arcs,
          (arcs.foldl (relaxArc u d) stp).dist e.1 ≤ ((d + e.2.1 : α) : WithTop α)) := by
  intro arcs
  induction arcs with
  | nil =>
    intro _ stp hr
    exact ⟨hr, by simp⟩
  | cons arc arcs ih =>
    intro hsub stp hr
    rw [List.foldl_cons]
    have harc : arc ∈ g.adj u := hsub arc (List.mem_cons_self _ _)
    obtain ⟨v, w, hid⟩ := arc
    have hwnn : 0 ≤ w := hw u v w hid harc
    have hstep : RInv g start L2 st0 u d (relaxArc u d stp (v, w, hid)) ∧
        (relaxArc u d stp (v, w, hid)).dist v ≤ ((d + w : α) : WithTop α) := by
      unfold relaxArc
      dsimp only
      by_cases hg : ((d + w : α) : WithTop α) < stp.dist v
      · rw [if_pos hg]
        -- the target is not settled, not the start, and differs from `u`
        have hwalkv : ∃ vs hs, Walk g start v vs hs (d + w) := by
          obtain ⟨vs, hs, hwk⟩ := hr.hreal u d ((hr.hfix u huL2).trans hdu)
          exact ⟨vs ++ [v], hs ++ [hid], Walk.snoc hwk harc⟩
        have hvL2 : v ∉ L2 := by
          intro hvin
          obtain ⟨vs, hs, hwk⟩ := hwalkv
          have h1 : st0.dist v ≤ ((d + w : α) : WithTop α) := hLopt v hvin vs hs _ hwk
          exact absurd (lt_of_lt_of_le hg (le_trans (hr.hmono v) h1)) (lt_irrefl _)
        have hvu : v ≠ u := fun he => hvL2 (he ▸ huL2)
        have hvstart : v ≠ start := by
          intro he
          subst he
          rw [hr.hstart0.1] at hg
          have : (0 : WithTop α) ≤ ((d + w : α) : WithTop α) := by
            rw [← WithTop.coe_zero]
            exact WithTop.coe_le_coe.mpr (add_nonneg hd0 hwnn)
          exact absurd (lt_of_lt_of_le hg this) (lt_irrefl _)
        refine ⟨⟨?_, ⟨?_, ?_⟩, ?_, ?_, ?_, ?_, ?_⟩, ?_⟩ <;> dsimp only
        · intro x hx
          rw [Function.update_noteq (fun he : x = v => hvL2 (he ▸ hx))]
          exact hr.hfix x hx
        · rw [Function.update_noteq (Ne.symm hvstart)]
          exact hr.hstart0.1
        · rw [Function.update_noteq (Ne.symm hvstart)]
          exact hr.hstart0.2
        · intro x
          by_cases hxv : x = v
          · subst hxv
            rw [Function.update_same]
            exact le_trans (le_of_lt hg) (hr.hmono x)
          · rw [Function.update_noteq hxv]
            exact hr.hmono x
        · intro d2 v2 hin
          rcases List.mem_cons.mp hin with he | hin
          · rw [Prod.mk.injEq] at he
            obtain ⟨he1, he2⟩ := he
            subst he1
            refine ⟨he2.symm ▸ hc u v w hid harc, add_nonneg hd0 hwnn, ?_⟩
            rw [he2, Function.update_same]
          · obtain ⟨hk, hpos, hle⟩ := hr.hheap d2 v2 hin
            refine ⟨hk, hpos, ?_⟩
            by_cases hxv : v2 = v
            · subst hxv
              rw [Function.update_same]
              exact le_trans (le_of_lt hg) hle
            · rw [Function.update_noteq hxv]
              exact hle
        · intro v2 hv2 hne
          by_cases hxv : v2 = v
          · subst hxv
            refine ⟨d + w, List.mem_cons_self _ _, ?_⟩
            rw [Function.update_same]
          · rw [Function.update_noteq hxv] at hne ⊢
            obtain ⟨d2, hin, heq⟩ := hr.hfrontier v2 hv2 hne
            exact ⟨d2, List.mem_cons_of_mem _ hin, heq⟩
        · intro v2 dv hv2
          by_cases hxv : v2 = v
          · subst hxv
            rw [Function.update_same] at hv2
            have hdv : dv = d + w := WithTop.coe_eq_coe.mp hv2.symm
            subst hdv
            exact hwalkv
          · rw [Function.update_noteq hxv] at hv2
            exact hr.hreal v2 dv hv2
        · intro v2 hv2 hne
          by_cases hxv : v2 = v
          · subst hxv
            refine ⟨u, w, hid, ?_, ?_, harc, huL2, ?_, ?_⟩
            · rw [Function.update_same]
            · rw [Function.update_same]
            · rw [Function.update_noteq (Ne.symm hvu), Function.update_same,
                (hr.hfix u huL2).trans hdu, ← WithTop.coe_add]
            · intro hvin
              exact absurd hvin hvL2
          · rw [Function.update_noteq hxv] at hv2
            obtain ⟨u2, w2, hid2, hp, hpe, harc2, hu2, hdeq, hidx⟩ :=
              hr.hpv v2 hv2 hne
            have hu2v : u2 ≠ v := fun he => hvL2 (he ▸ hu2)
            refine ⟨u2, w2, hid2, ?_, ?_, harc2, hu2, ?_, hidx⟩
            · rw [Function.update_noteq hxv]
              exact hp
            · rw [Function.update_noteq hxv]
              exact hpe
            · rw [Function.update_noteq hxv, Function.update_noteq hu2v]
              exact hdeq
        · rw [Function.update_same]
      · rw [if_neg hg]
        exact ⟨hr, not_lt.mp hg⟩
    obtain ⟨hr2, hv2⟩ := hstep
    obtain ⟨hr3, hall3⟩ := ih (fun e he => hsub e (List.mem_cons_of_mem _ he)) _ hr2
    refine ⟨hr3, ?_⟩
    intro e he
    rcases List.mem_cons.mp he with rfl | he
    · exact le_trans (relaxArc_fold_dist_le u d arcs _ _) hv2
    · exact hall3 e he

/-- A state with an empty heap satisfies the exit property: every reached
vertex is settled, hence optimal. -/
theorem dPost_of_heap_empty (g : Graph α) (start endv : Int) (L : List Int)
    (st : DState α) (hinv : DInv g start L st) (hnil : st.heap = []) :
    DPost g start endv st := by
  refine ⟨L, hinv.hnodup, hinv.hLkeys, hinv.hLdist, hinv.hstart, hinv.hpv, ?_⟩
  intro hend
  have hendL : endv ∈ L := by
    by_contra hnot
    obtain ⟨d2, hin, -⟩ := hinv.hfrontier endv hnot hend
    rw [hnil] at hin
    cases hin
  exact ⟨hendL, hinv.hopt endv hendL⟩

/-- Dropping the popped entry preserves the loop invariant when the entry is
stale. -/
theorem dInv_pop_stale (g : Graph α) (start : Int) (L : List Int) (st : DState α)
    (hinv : DInv g start L st) (d : α) (u : Int) (rest : List (α × Int))
    (hpop : popMin st.heap = some ((d, u), rest))
    (hstale : (d : WithTop α) > st.dist u) :
    DInv g start L { st with heap := rest } := by
  obtain ⟨hmem, -, hrest⟩ := popMin_spec _ _ _ hpop
  refine ⟨hinv.hnodup, hinv.hLkeys, ?_, ?_, hinv.hrelaxed, hinv.hLdist, hinv.hopt,
    hinv.hreal, hinv.hpv, hinv.hstart⟩
  · intro d2 v hin
    exact hinv.hheap d2 v (List.mem_of_mem_erase (hrest ▸ hin))
  · intro v hvL hvne
    obtain ⟨d2, hin, heq⟩ := hinv.hfrontier v hvL hvne
    refine ⟨d2, ?_, heq⟩
    have hne : (d2, v) ≠ (d, u) := by
      intro he
      rw [Prod.mk.injEq] at he
      obtain ⟨he1, he2⟩ := he
      rw [he2, he1] at heq
      exact absurd (heq ▸ hstale) (lt_irrefl _)
    rw [hrest]
    exact (List.mem_erase_of_ne hne).mpr hin

/-- Dropping the popped entry preserves the loop invariant when the popped
vertex is already settled; in that case the relaxation pass is the identity. -/
theorem dInv_pop_settled (g : Graph α) (start : Int) (L : List Int) (st : DState α)
    (hinv : DInv g start L st) (d : α) (u : Int) (rest : List (α × Int))
    (hpop : popMin st.heap = some ((d, u), rest))
    (hnonstale : ¬ ((d : WithTop α) > st.dist u)) (huL : u ∈ L) :
    DInv g start L { st with heap := rest } ∧
    relax g u d { st with heap := rest } = { st with heap := rest } := by
  obtain ⟨hmem, -, hrest⟩ := popMin_spec _ _ _ hpop
  have hdu : st.dist u = (d : WithTop α) :=
    le_antisymm (hinv.hheap d u hmem).2.2 (not_lt.mp hnonstale)
  constructor
  · refine ⟨hinv.hnodup, hinv.hLkeys, ?_, ?_, hinv.hrelaxed, hinv.hLdist, hinv.hopt,
      hinv.hreal, hinv.hpv, hinv.hstart⟩
    · intro d2 v hin
      exact hinv.hheap d2 v (List.mem_of_mem_erase (hrest ▸ hin))
    · intro v hvL hvne
      obtain ⟨d2, hin, heq⟩ := hinv.hfrontier v hvL hvne
      refine ⟨d2, ?_, heq⟩
      have hne : (d2, v) ≠ (d, u) := by
        intro he
        rw [Prod.mk.injEq] at he
        exact hvL (by rw [he.2]; exact huL)
      rw [hrest]
      exact (List.mem_erase_of_ne hne).mpr hin
  · unfold relax
    refine relaxArc_fold_id u d (g.adj u) _ ?_
    intro e he hlt
    have hrel := hinv.hrelaxed u huL e.1 e.2.1 e.2.2 (by
      rcases e with ⟨v, w, hid⟩
      exact he)
    rw [hdu, ← WithTop.coe_add] at hrel
    exact absurd (lt_of_lt_of_le hlt hrel) (lt_irrefl _)

/-- Settling a new vertex removes its arcs from the unsettled-degree sum. -/
theorem phi_sum_settle (f : Int → Nat) :
    ∀ (K : List Int) (L : List Int) (u : Int), K.Nodup → u ∈ K → u ∉ L →
      ((K.filter (fun k => decide (k ∉ L))).map f).sum =
        ((K.filter (fun k => decide (k ∉ L ++ [u]))).map f).sum + f u := by
  intro K
  induction K with
  | nil =>
    intro L u _ hu _
    cases hu
  | cons k K ih =>
    intro L u hnd hu huL
    simp only [List.filter_cons, decide_eq_true_eq]
    rcases List.mem_cons.mp hu with rfl | hu'
    · have hKu : u ∉ K := (List.nodup_cons.mp hnd).1
      rw [if_pos huL, if_neg (by simp)]
      rw [List.map_cons, List.sum_cons]
      have hsame : K.filter (fun k => decide (k ∉ L)) =
          K.filter (fun k => decide (k ∉ L ++ [u])) := by
        refine List.filter_congr ?_
        intro k hk
        have hku : k ≠ u := fun he => hKu (he ▸ hk)
        simp [List.mem_append, hku]
      rw [hsame]
      omega
    · have hkne : k ≠ u := fun he => (List.nodup_cons.mp hnd).1 (he ▸ hu')
      have hrec := ih L u (List.nodup_cons.mp hnd).2 hu' huL
      by_cases hkL : k ∉ L
      · rw [if_pos hkL, if_pos (by simp [List.mem_append, hkL, hkne])]
        rw [List.map_cons, List.sum_cons, List.map_cons, List.sum_cons, hrec]
        omega
      · rw [if_neg hkL, if_neg (by
          intro hcon
          exact hkL (fun hkL2 => hcon (List.mem_append.mpr (Or.inl hkL2))))]
        exact hrec

/-- Settling a fresh nonstale pop: the invariant moves to `L ++ [u]` and the
potential strictly decreases. -/
theorem dInv_settle (g : Graph α) (start : Int) (L : List Int) (st : DState α)
    (hw : NonnegWeights g) (hc : ClosedGraph g) (hknd : g.keys.Nodup)
    (hinv : DInv g start L st) (d : α) (u : Int) (rest : List (α × Int))
    (hpop : popMin st.heap = some ((d, u), rest))
    (hnonstale : ¬ ((d : WithTop α) > st.dist u)) (huL : u ∉ L) :
    DInv g start (L ++ [u]) (relax g u d { st with heap := rest }) ∧
    dPhi g (L ++ [u]) (relax g u d { st with heap := rest }) < dPhi g L st := by
  obtain ⟨hmem, -, hrest⟩ := popMin_spec _ _ _ hpop
  obtain ⟨huk, hd0, -⟩ := hinv.hheap d u hmem
  obtain ⟨hdu, huopt⟩ := settle_opt g start L st hw hinv d u rest hpop hnonstale
  have hLopt : ∀ x ∈ L ++ [u], ∀ vs hs ω, Walk g start x vs hs ω →
      st.dist x ≤ (ω : WithTop α) := by
    intro x hx
    rcases List.mem_append.mp hx with hx | hx
    · exact hinv.hopt x hx
    · rw [List.mem_singleton.mp hx]
      exact huopt
  have hrinv1 : RInv g start (L ++ [u]) st u d { st with heap := rest } := by
    refine ⟨fun x _ => rfl, hinv.hstart, fun x => le_refl _, ?_, ?_, hinv.hreal, ?_⟩
    · intro d2 v hin
      exact hinv.hheap d2 v (List.mem_of_mem_erase (hrest ▸ hin))
    · intro v hvL hvne
      have hvL2 : v ∉ L := fun hin2 => hvL (List.mem_append.mpr (Or.inl hin2))
      have hvu : v ≠ u := fun he =>
        hvL (List.mem_append.mpr (Or.inr (List.mem_singleton.mpr he)))
      obtain ⟨d2, hin, heq⟩ := hinv.hfrontier v hvL2 hvne
      refine ⟨d2, ?_, heq⟩
      have hne : (d2, v) ≠ (d, u) := by
        intro he
        rw [Prod.mk.injEq] at he
        exact hvu he.2
      rw [hrest]
      exact (List.mem_erase_of_ne hne).mpr hin
    · intro v hvne hvs
      obtain ⟨u2, w2, hid2, hp, hpe, harc2, hu2, hdeq, hidx⟩ := hinv.hpv v hvne hvs
      refine ⟨u2, w2, hid2, hp, hpe, harc2,
        List.mem_append.mpr (Or.inl hu2), hdeq, ?_⟩
      intro hvin
      rcases List.mem_append.mp hvin with hvin | hvin
      · rw [List.indexOf_append_of_mem hvin, List.indexOf_append_of_mem hu2]
        exact hidx hvin
      · rw [List.mem_singleton.mp hvin]
        rw [List.indexOf_append_of_mem hu2, List.indexOf_append_of_not_mem huL]
        exact lt_of_lt_of_le (List.indexOf_lt_length.mpr hu2) (Nat.le_add_right _ _)
  obtain ⟨hrinv2, hbound⟩ := relaxArc_fold_rinv g start (L ++ [u]) st u d hw hc hd0
    (List.mem_append.mpr (Or.inr (List.mem_singleton.mpr rfl))) hLopt hdu
    (g.adj u) (fun e he => he) _ hrinv1
  have hfinal : relax g u d { st with heap := rest } =
      (g.adj u).foldl (relaxArc u d) { st with heap := rest } := rfl
  rw [hfinal]
  set stf := (g.adj u).foldl (relaxArc u d) { st with heap := rest } with hstf
  have huL2 : u ∈ L ++ [u] := List.mem_append.mpr (Or.inr (List.mem_singleton.mpr rfl))
  constructor
  · refine ⟨?_, ?_, hrinv2.hheap, hrinv2.hfrontier, ?_, ?_, ?_, hrinv2.hreal,
      hrinv2.hpv, hrinv2.hstart0⟩
    · rw [List.nodup_append]
      exact ⟨hinv.hnodup, List.nodup_singleton _, by simpa using huL⟩
    · intro x hx
      rcases List.mem_append.mp hx with hx | hx
      · exact hinv.hLkeys x hx
      · rw [List.mem_singleton.mp hx]
        exact huk
    · intro x hx v w hid harc
      rcases List.mem_append.mp hx with hxL | hxu
      · have hfx : stf.dist x = st.dist x := hrinv2.hfix x hx
        rw [hfx]
        exact le_trans (hrinv2.hmono v) (hinv.hrelaxed x hxL v w hid harc)
      · rw [List.mem_singleton.mp hxu] at harc ⊢
        have hfu : stf.dist u = (d : WithTop α) := (hrinv2.hfix u huL2).trans hdu
        rw [hfu, ← WithTop.coe_add]
        exact hbound (v, w, hid) harc
    · intro x hx
      rw [hrinv2.hfix x hx]
      rcases List.mem_append.mp hx with hxL | hxu
      · exact hinv.hLdist x hxL
      · rw [List.mem_singleton.mp hxu, hdu]
        exact WithTop.coe_ne_top
    · intro x hx vs hs ω hwk
      rw [hrinv2.hfix x hx]
      exact hLopt x hx vs hs ω hwk
  · have hlen1 : stf.heap.length ≤ rest.length + (g.adj u).length :=
      relaxArc_fold_heap_len u d (g.adj u) { st with heap := rest }
    have hrl : rest.length + 1 = st.heap.length := by
      rw [hrest, List.length_erase_of_mem hmem]
      have hpos : 0 < st.heap.length := List.length_pos.mpr (List.ne_nil_of_mem hmem)
      omega
    have hsum : ((g.keys.filter (fun k => decide (k ∉ L))).map
          (fun k => (g.adj k).length)).sum =
        ((g.keys.filter (fun k => decide (k ∉ L ++ [u]))).map
          (fun k => (g.adj k).length)).sum + (g.adj u).length :=
      phi_sum_settle (fun k => (g.adj k).length) g.keys L u hknd huk huL
    simp only [dPhi]
    omega

/-- A nonstale pop of the end vertex: the break-state satisfies the exit
property (the settled list gains `endv` when it was not yet settled). -/
theorem dPost_break (g : Graph α) (start endv : Int) (L : List Int) (st : DState α)
    (hw : NonnegWeights g) (hinv : DInv g start L st)
    (d : α) (rest : List (α × Int))
    (hpop : popMin st.heap = some ((d, endv), rest))
    (hnonstale : ¬ ((d : WithTop α) > st.dist endv)) :
    DPost g start endv { st with heap := rest } := by
  obtain ⟨hmem, -, -⟩ := popMin_spec _ _ _ hpop
  obtain ⟨hdu, huopt⟩ := settle_opt g start L st hw hinv d endv rest hpop hnonstale
  by_cases hEndL : endv ∈ L
  · exact ⟨L, hinv.hnodup, hinv.hLkeys, hinv.hLdist, hinv.hstart, hinv.hpv,
      fun _ => ⟨hEndL, hinv.hopt endv hEndL⟩⟩
  · refine ⟨L ++ [endv], ?_, ?_, ?_, hinv.hstart, ?_, ?_⟩
    · rw [List.nodup_append]
      exact ⟨hinv.hnodup, List.nodup_singleton _,
        fun a haL hau => hEndL (List.mem_singleton.mp hau ▸ haL)⟩
    · intro x hx
      rcases List.mem_append.mp hx with hx | hx
      · exact hinv.hLkeys x hx
      · rw [List.mem_singleton.mp hx]
        exact (hinv.hheap d endv hmem).1
    · intro x hx
      rcases List.mem_append.mp hx with hx | hx
      · exact hinv.hLdist x hx
      · rw [List.mem_singleton.mp hx]
        show st.dist endv ≠ ⊤
        rw [hdu]
        exact WithTop.coe_ne_top
    · intro v hvne hvs
      obtain ⟨u2, w2, hid2, hp, hpe, harc2, hu2, hdeq, hidx⟩ := hinv.hpv v hvne hvs
      refine ⟨u2, w2, hid2, hp, hpe, harc2, List.mem_append.mpr (Or.inl hu2), hdeq, ?_⟩
      intro hvin
      rcases List.mem_append.mp hvin with hvin | hvin
      · rw [List.indexOf_append_of_mem hvin, List.indexOf_append_of_mem hu2]
        exact hidx hvin
      · rw [List.mem_singleton.mp hvin]
        rw [List.indexOf_append_of_mem hu2, List.indexOf_append_of_not_mem hEndL]
        exact lt_of_lt_of_le (List.indexOf_lt_length.mpr hu2) (Nat.le_add_right _ _)
    · intro _
      exact ⟨List.mem_append.mpr (Or.inr (List.mem_singleton.mpr rfl)), huopt⟩

/-- The master loop theorem: from any state satisfying the loop invariant, with
enough fuel for the current potential, the loop exits in a state satisfying the
exit property. -/
theorem dloop_master (g : Graph α) (start endv : Int)
    (hw : NonnegWeights g) (hc : ClosedGraph g) (hknd : g.keys.Nodup) :
    ∀ (fuel : Nat) (L : List Int) (st : DState α),
      DInv g start L st → dPhi g L st ≤ fuel →
      DPost g start endv (dloop g endv fuel st) := by
  intro fuel
  induction fuel with
  | zero =>
    intro L st hinv hφ
    have hnil : st.heap = [] := by
      simp only [dPhi] at hφ
      exact List.length_eq_zero.mp (by omega)
    exact dPost_of_heap_empty g start endv L st hinv hnil
  | succ fuel ih =>
    intro L st hinv hφ
    simp only [dloop]
    rcases hpop : popMin st.heap with _ | ⟨⟨d, u⟩, rest⟩
    · exact dPost_of_heap_empty g start endv L st hinv (popMin_eq_none st.heap hpop)
    · obtain ⟨hmem, -, hrest⟩ := popMin_spec _ _ _ hpop
      have hlen : rest.length + 1 = st.heap.length := by
        rw [hrest, List.length_erase_of_mem hmem]
        have hpos : 0 < st.heap.length := List.length_pos.mpr (List.ne_nil_of_mem hmem)
        omega
      dsimp only
      by_cases hstale : (d : WithTop α) > st.dist u
      · rw [if_pos hstale]
        refine ih L _ (dInv_pop_stale g start L st hinv d u rest hpop hstale) ?_
        simp only [dPhi] at hφ ⊢
        omega
      · rw [if_neg hstale]
        by_cases hend : u = endv
        · subst hend
          rw [if_pos rfl]
          exact dPost_break g start u L st hw hinv d rest hpop hstale
        · rw [if_neg hend]
          by_cases huL : u ∈ L
          · obtain ⟨hinv2, hid2⟩ :=
              dInv_pop_settled g start L st hinv d u rest hpop hstale huL
            rw [hid2]
            refine ih L _ hinv2 ?_
            simp only [dPhi] at hφ ⊢
            omega
          · obtain ⟨hinv2, hφ2⟩ :=
              dInv_settle g start L st hw hc hknd hinv d u rest hpop hstale huL
            exact ih (L ++ [u]) _ hinv2 (by omega)

/-- Reconstruction: following the predecessor chain from a settled vertex and
reversing yields a walk from the start realizing the recorded distance, whose
hallway list is exactly the `prev_edge` values of the non-initial vertices. -/
theorem followPrev_walk (g : Graph α) (start : Int) (L : List Int) (st : DState α)
    (hstartk : start ∈ g.keys)
    (hLdist : ∀ u ∈ L, st.dist u ≠ ⊤)
    (hstart : st.dist start = 0 ∧ st.prev start = none)
    (hpv : ∀ v, st.dist v ≠ ⊤ → v ≠ start →
      ∃ u w hid, st.prev v = some u ∧ st.prev_edge v = some hid ∧
        (v, w, hid) ∈ g.adj u ∧ u ∈ L ∧ st.dist u + (w : WithTop α) = st.dist v ∧
        (v ∈ L → L.indexOf u < L.indexOf v)) :
    ∀ (n fuel : Nat) (v : Int), v ∈ L → L.indexOf v < n → n ≤ fuel →
      ∃ (ω : α), st.dist v = (ω : WithTop α) ∧
        Walk g start v (followPrev st.prev fuel (some v)).reverse
          (((followPrev st.prev fuel (some v)).reverse.drop 1).filterMap
            st.prev_edge) ω := by
  intro n
  induction n with
  | zero =>
    intro fuel v _ hidx _
    exact absurd hidx (Nat.not_lt_zero _)
  | succ n ih =>
    intro fuel v hvL hidx hfuel
    obtain ⟨fuel', rfl⟩ : ∃ f, fuel = f + 1 := ⟨fuel - 1, by omega⟩
    by_cases hvstart : v = start
    · subst hvstart
      refine ⟨0, by rw [hstart.1, WithTop.coe_zero], ?_⟩
      have hfp : followPrev st.prev (fuel' + 1) (some v) = [v] := by
        show v :: followPrev st.prev fuel' (st.prev v) = [v]
        rw [hstart.2]
        rcases fuel' with _ | f2 <;> rfl
      rw [hfp]
      simp only [List.reverse_cons, List.reverse_nil, List.nil_append,
        List.drop_one, List.tail_cons, List.filterMap_nil]
      exact Walk.nil hstartk
    · have hvd : st.dist v ≠ ⊤ := hLdist v hvL
      obtain ⟨u, w, hid, hp, hpe, harc, huLmem, hdeq, hidxlt⟩ := hpv v hvd hvstart
      have hidxu : L.indexOf u < n :=
        lt_of_lt_of_le (hidxlt hvL) (Nat.lt_succ_iff.mp hidx)
      have hfuel' : n ≤ fuel' := by omega
      obtain ⟨ω, hω, hwalk⟩ := ih fuel' u huLmem hidxu hfuel'
      obtain ⟨f2, rfl⟩ : ∃ f, fuel' = f + 1 := ⟨fuel' - 1, by omega⟩
      have hRne : (followPrev st.prev (f2 + 1) (some u)).reverse ≠ [] := by
        intro hcon
        have hAnil : followPrev st.prev (f2 + 1) (some u) = [] :=
          List.reverse_eq_nil_iff.mp hcon
        exact List.cons_ne_nil u _ hAnil
      obtain ⟨t0, trest, hA⟩ := List.exists_cons_of_ne_nil hRne
      have hfp : followPrev st.prev (f2 + 1 + 1) (some v) =
          v :: followPrev st.prev (f2 + 1) (some u) := by
        show v :: followPrev st.prev (f2 + 1) (st.prev v) =
          v :: followPrev st.prev (f2 + 1) (some u)
        rw [hp]
      rw [hA] at hwalk
      simp only [List.drop_one, List.tail_cons] at hwalk
      refine ⟨ω + w, ?_, ?_⟩
      · rw [← hdeq, hω, ← WithTop.coe_add]
      · rw [hfp, List.reverse_cons, hA]
        simp only [List.cons_append, List.drop_one, List.tail_cons,
          List.filterMap_append, List.filterMap_cons, hpe, List.filterMap_nil]
        exact Walk.snoc hwalk harc

/-- The initial state of the main loop satisfies the invariant with no settled
vertices. -/
theorem dInv_init (g : Graph α) (start : Int) (hkstart : start ∈ g.keys) :
    DInv g start []
      { dist := Function.update (fun _ => (⊤ : WithTop α)) start ((0 : α) : WithTop α)
        prev := fun _ => none
        prev_edge := fun _ => none
        heap := [((0 : α), start)] } := by
  refine ⟨List.nodup_nil, ?_, ?_, ?_, ?_, ?_, ?_, ?_, ?_, ?_, rfl⟩
  · intro u hu
    exact absurd hu (List.not_mem_nil u)
  · intro d v hin
    replace hin : (d, v) ∈ [((0 : α), start)] := hin
    rw [List.mem_singleton, Prod.mk.injEq] at hin
    obtain ⟨rfl, rfl⟩ := hin
    refine ⟨hkstart, le_refl 0, ?_⟩
    show Function.update (fun _ => (⊤ : WithTop α)) v ((0 : α) : WithTop α) v ≤
      ((0 : α) : WithTop α)
    rw [Function.update_same]
  · intro v _ hvne
    by_cases hv : v = start
    · subst hv
      refine ⟨0, List.mem_singleton.mpr rfl, ?_⟩
      show Function.update (fun _ => (⊤ : WithTop α)) v ((0 : α) : WithTop α) v =
        ((0 : α) : WithTop α)
      rw [Function.update_same]
    · exact absurd (show Function.update (fun _ => (⊤ : WithTop α)) start
        ((0 : α) : WithTop α) v = ⊤ from Function.update_noteq hv _ _) hvne
  · intro u hu
    exact absurd hu (List.not_mem_nil u)
  · intro u hu
    exact absurd hu (List.not_mem_nil u)
  · intro u hu
    exact absurd hu (List.not_mem_nil u)
  · intro v dv hveq
    replace hveq : Function.update (fun _ => (⊤ : WithTop α)) start
        ((0 : α) : WithTop α) v = (dv : WithTop α) := hveq
    by_cases hv : v = start
    · subst hv
      rw [Function.update_same] at hveq
      obtain rfl : (0 : α) = dv := WithTop.coe_eq_coe.mp hveq
      exact ⟨[v], [], Walk.nil hkstart⟩
    · rw [Function.update_noteq hv] at hveq
      exact absurd hveq.symm (WithTop.coe_ne_top)
  · intro v hvne hvs
    exact absurd (show Function.update (fun _ => (⊤ : WithTop α)) start
      ((0 : α) : WithTop α) v = ⊤ from Function.update_noteq hvs _ _) hvne
  · show Function.update (fun _ => (⊤ : WithTop α)) start ((0 : α) : WithTop α) start = 0
    rw [Function.update_same]
    exact WithTop.coe_zero

/-- The initial potential is covered by the fuel `totalArcs + 1` that
`dijkstra_shortest_path` passes to the loop. -/
theorem dPhi_init (g : Graph α) (start : Int) :
    dPhi g []
      { dist := Function.update (fun _ => (⊤ : WithTop α)) start ((0 : α) : WithTop α)
        prev := fun _ => none
        prev_edge := fun _ => none
        heap := [((0 : α), start)] } ≤ totalArcs g + 1 := by
  simp only [dPhi, totalArcs, List.length_cons, List.length_nil]
  have hfe : g.keys.filter (fun k => decide (k ∉ ([] : List Int))) = g.keys :=
    List.filter_eq_self.mpr (fun a _ => by simp)
  rw [hfe]
  omega

/-- C1: for distinct start and end ids that are vertices of the built graph,
when `dijkstra_shortest_path` returns a space path and a hallway path, they
form a walk from the start id to the end id along arcs of the built graph
whose total weight is minimal among all walks between those two vertices. -/
theorem dijkstra_shortest_path_optimal (sqrt : α → α) (m : Map α)
    (hsq0 : ∀ a : α, 0 ≤ a → 0 ≤ sqrt a)
    (start endv : Int) (hne : start ≠ endv) (sp hp : List Int)
    (hrun : dijkstra_shortest_path sqrt m start endv = some (sp, hp)) :
    ∃ ω : α, Walk (build_graph sqrt m) start endv sp hp ω ∧
      ∀ vs hs (ω2 : α), Walk (build_graph sqrt m) start endv vs hs ω2 → ω ≤ ω2 := by
  unfold dijkstra_shortest_path at hrun
  dsimp only at hrun
  split at hrun
  · cases hrun
  · rename_i hks
    split at hrun
    · cases hrun
    · rename_i htop
      rw [Option.some.injEq, Prod.mk.injEq] at hrun
      obtain ⟨hsp, hhp⟩ := hrun
      push_neg at hks
      obtain ⟨hkstart, hkend⟩ := hks
      have hpost := dloop_master (build_graph sqrt m) start endv
        (build_graph_nonneg sqrt m hsq0) (build_graph_closed sqrt m)
        (build_graph_keys_nodup sqrt m) (totalArcs (build_graph sqrt m) + 1) []
        _ (dInv_init (build_graph sqrt m) start hkstart)
        (dPhi_init (build_graph sqrt m) start)
      obtain ⟨L, hLnodup, hLkeys, hLdist, hstart, hpv, hlast⟩ := hpost
      obtain ⟨hendL, hopt⟩ := hlast htop
      have hfuelb : L.indexOf endv + 1 ≤ (build_graph sqrt m).keys.length + 1 := by
        have h1 : L.indexOf endv < L.length := List.indexOf_lt_length.mpr hendL
        have h2 : L.length ≤ (build_graph sqrt m).keys.length :=
          List.Subperm.length_le (List.Nodup.subperm hLnodup (fun a ha => hLkeys a ha))
        omega
      obtain ⟨ω, hω, hwalk⟩ := followPrev_walk (build_graph sqrt m) start L _
        hkstart hLdist hstart hpv (L.indexOf endv + 1)
        ((build_graph sqrt m).keys.length + 1) endv hendL (Nat.lt_succ_self _) hfuelb
      rw [← hsp, ← hhp]
      refine ⟨ω, hwalk, ?_⟩
      intro vs hs ω2 hw2
      have hle : (ω : WithTop α) ≤ (ω2 : WithTop α) := hω ▸ hopt vs hs ω2 hw2
      exact WithTop.coe_le_coe.mp hle

/-- Closed witness for the optimality theorem: on the fixture map the engine,
run from space 1 to space 3, returns the two-hop path through space 2, which is
a walk of minimal total weight. -/
theorem dijkstra_shortest_path_optimal_witness :
    ∃ ω : ℤ, Walk (build_graph (fun a : ℤ => a) exMap) 1 3 [1, 2, 3] [1, 2] ω ∧
      ∀ vs hs (ω2 : ℤ), Walk (build_graph (fun a : ℤ => a) exMap) 1 3 vs hs ω2 →
        ω ≤ ω2 :=
  dijkstra_shortest_path_optimal (fun a : ℤ => a) exMap (fun a ha => ha) 1 3
    (by decide) [1, 2, 3] [1, 2] (by decide)

end App
